import Mathlib

/- Shallow embedding of the survey-form conversion pipeline of
   src/form_converter.py.

   A cell is an optional string: `none` models pandas NaN, Python None and
   an absent value; `some s` models a string cell.  `is_empty` collapses
   `none` and `some ""` into one blank state, exactly as the Python
   `is_empty` collapses NaN, None and the empty string.  A table is an
   ordered list of column names together with row-major cell lists, the
   embedding of a pandas DataFrame; `Table.WF` states the two DataFrame
   invariants (rectangular rows, no duplicate column names).

   Python string primitives are modelled on the character list of the
   string: `pyStrip` is str.strip over the common whitespace characters,
   `lowerCh` is str.lower restricted to the ASCII range (the only
   case-sensitive data the pipeline compares is ASCII), `strStarts` is
   str.startswith and `strHas` the `in` substring test.

   The two stage functions that index a column without first checking for
   it (`ensure_unique_names` reads df[name_col], `fix_cascading_selects`
   reads choices_df[list_name]) are embedded in `Except Unit`: `.error ()`
   models the pandas KeyError those lookups raise when the column is
   absent.  Every other stage only reads columns it has checked for and is
   embedded as a plain function. -/

namespace FormConverter

abbrev Cell := Option String

def is_empty : Cell → Bool
  | none => true
  | some s => decide (s = "")

def isSpaceCh (c : Char) : Bool :=
  decide (c = ' ') || decide (c = '\t') || decide (c = '\n') ||
    decide (c = '\r') || decide (c = '\x0b') || decide (c = '\x0c')

def lowerCh (c : Char) : Char :=
  if decide ('A' ≤ c) && decide (c ≤ 'Z') then Char.ofNat (c.toNat + 32) else c

def keepCh (c : Char) : Bool :=
  (decide ('a' ≤ c) && decide (c ≤ 'z')) ||
    (decide ('0' ≤ c) && decide (c ≤ '9')) || decide (c = '_')

def startsWithL : List Char → List Char → Bool
  | [], _ => true
  | _ :: _, [] => false
  | p :: ps, c :: cs => decide (p = c) && startsWithL ps cs

def hasSubL (pat : List Char) : List Char → Bool
  | [] => startsWithL pat []
  | c :: cs => startsWithL pat (c :: cs) || hasSubL pat cs

def strStarts (s p : String) : Bool := startsWithL p.data s.data

def strHas (s p : String) : Bool := hasSubL p.data s.data

def pyStripL (l : List Char) : List Char :=
  (((l.reverse.dropWhile isSpaceCh).reverse).dropWhile isSpaceCh)

def pyStrip (s : String) : String := String.mk (pyStripL s.data)

/-- Embedding of normalize_name: blank input gives the empty string, and
otherwise the name is lowercased, spaces become underscores, and every
character outside a-z, 0-9, underscore is removed. -/
def normalize_name (c : Cell) : String :=
  if is_empty c then ""
  else
    String.mk ((((c.getD "").data.map lowerCh).map
      (fun ch => if decide (ch = ' ') then '_' else ch)).filter keepCh)

structure Table where
  cols : List String
  rows : List (List Cell)
deriving DecidableEq

def Table.WF (t : Table) : Prop :=
  t.cols.Nodup ∧ ∀ r ∈ t.rows, r.length = t.cols.length

instance (t : Table) : Decidable (Table.WF t) := by
  unfold Table.WF; infer_instance

/-- Cell of a row under a column name; the first matching column wins and
a missing column or a too-short row reads as an absent cell. -/
def getCell : List String → List Cell → String → Cell
  | [], _, _ => none
  | _ :: _, [], _ => none
  | c :: cs, v :: vs, tgt => if c = tgt then v else getCell cs vs tgt

/-- Rewrite the cells of the columns named tgt through f, leaving the other
positions of the row unchanged. -/
def updCol (cols : List String) (tgt : String) (f : Cell → Cell)
    (r : List Cell) : List Cell :=
  List.zipWith (fun c v => if c = tgt then f v else v) cols r

def setColRow (cols : List String) (tgt : String) (v : Cell)
    (r : List Cell) : List Cell :=
  updCol cols tgt (fun _ => v) r

/-- Counter dictionary of ensure_unique_names, as an association list. -/
def lookupCnt : List (String × Nat) → String → Option Nat
  | [], _ => none
  | (k, n) :: m, q => if k = q then some n else lookupCnt m q

def setCnt : List (String × Nat) → String → Nat → List (String × Nat)
  | [], q, n => [(q, n)]
  | (k, v) :: m, q, n => if k = q then (q, n) :: m else (k, v) :: setCnt m q n

/-- The name-column walk of ensure_unique_names: blank names pass through,
a fresh normalized base is kept as-is with counter 0, and a collision
appends the bumped counter as a suffix. -/
def uniqueNamesGo : List Cell → List (String × Nat) → List Cell
  | [], _ => []
  | c :: cs, m =>
    if is_empty c then c :: uniqueNamesGo cs m
    else
      let b := normalize_name c
      match lookupCnt m b with
      | some k =>
          some (b ++ "_" ++ Nat.repr (k + 1)) :: uniqueNamesGo cs (setCnt m b (k + 1))
      | none => some b :: uniqueNamesGo cs (setCnt m b 0)

/-- Embedding of ensure_unique_names; reading df[name_col] raises KeyError
when the name column is absent, modelled by `.error ()`. -/
def ensure_unique_names (t : Table) : Except Unit Table :=
  if "name" ∈ t.cols then
    let newNames := uniqueNamesGo (t.rows.map (fun r => getCell t.cols r "name")) []
    .ok ⟨t.cols, List.zipWith (fun r v => setColRow t.cols "name" v r) t.rows newNames⟩
  else .error ()

def labelEnglishAliases : List String :=
  ["label", "label:English", "label::English (en)", "label::English"]

def labelArabicAliases : List String :=
  ["label:العربية", "label::Arabic (ar)", "label::العربية", "label::Arabic"]

def hintEnglishAliases : List String :=
  ["hint", "hint:English", "hint::English (en)", "hint::English"]

def hintArabicAliases : List String :=
  ["hint:العربية", "hint::Arabic (ar)", "hint::العربية", "hint::Arabic"]

def canonical4 : List String :=
  ["label::English", "label::Arabic", "hint::English", "hint::Arabic"]

/-- The if/elif alias dispatch of normalize_language_columns: the canonical
target a column is merged into, if any. -/
def aliasTarget (c : String) : Option String :=
  if c ∈ labelEnglishAliases ∧ c ≠ "label::English" then some "label::English"
  else if c ∈ labelArabicAliases ∧ c ≠ "label::Arabic" then some "label::Arabic"
  else if c ∈ hintEnglishAliases ∧ c ≠ "hint::English" then some "hint::English"
  else if c ∈ hintArabicAliases ∧ c ≠ "hint::Arabic" then some "hint::Arabic"
  else none

/-- One row of the df.apply merge of an alias column into a canonical
column: the canonical cell takes the alias value when the canonical cell is
blank and the alias cell is not. -/
def mergeRow (cols : List String) (src tgt : String) (r : List Cell) : List Cell :=
  updCol cols tgt
    (fun v => if is_empty v && !is_empty (getCell cols r src) then getCell cols r src else v) r

def mergeStep (t : Table) (src tgt : String) : Table :=
  ⟨t.cols, t.rows.map (mergeRow t.cols src tgt)⟩

/-- df[c] = '' on a missing column: the column is appended and every row
gets the empty string. -/
def addColIfMissing (t : Table) (c : String) : Table :=
  if c ∈ t.cols then t else ⟨t.cols ++ [c], t.rows.map (fun r => r ++ [some ""])⟩

/-- The column-drop filter of normalize_language_columns: label/hint columns
with a locale marker other than the canonical four. -/
def dropCondNLC (c : String) : Bool :=
  ((strStarts c "label:" || strStarts c "label::") &&
    !(decide (c = "label::English") || decide (c = "label::Arabic"))) ||
  ((strStarts c "hint:" || strStarts c "hint::") &&
    !(decide (c = "hint::English") || decide (c = "hint::Arabic")))

def dropRowNames (ds : List String) : List String → List Cell → List Cell
  | [], _ => []
  | _ :: _, [] => []
  | c :: cs, v :: vs =>
    if c ∈ ds then dropRowNames ds cs vs else v :: dropRowNames ds cs vs

def dropColsNames (ds : List String) (cols : List String) : List String :=
  cols.filter (fun c => !decide (c ∈ ds))

/-- df.drop(columns=ds): the named columns disappear from the header and
from every row. -/
def dropByNames (t : Table) (ds : List String) : Table :=
  ⟨dropColsNames ds t.cols, t.rows.map (dropRowNames ds t.cols)⟩

def nlcStep (acc : Table) (c : String) : Table :=
  match aliasTarget c with
  | some tgt => mergeStep acc c tgt
  | none => acc

/-- Embedding of normalize_language_columns: create the four canonical
columns when absent, merge each alias column of the original column order
into its canonical target (first match wins per row), then drop the
recognized locale-marked label/hint columns of the original header. -/
def normalize_language_columns (t : Table) : Table :=
  let t1 := addColIfMissing (addColIfMissing (addColIfMissing
    (addColIfMissing t "label::English") "label::Arabic") "hint::English") "hint::Arabic"
  let t2 := t.cols.foldl nlcStep t1
  dropByNames t2 (t.cols.filter dropCondNLC)

def unsupportedTypes : List String :=
  ["deviceid", "username", "subscriberid", "simserial",
   "phonenumber", "caseid", "text audit", "comments", "audit"]

def standardTypes : List String :=
  ["text", "integer", "decimal", "select_one", "select_multiple",
   "note", "geopoint", "geotrace", "geoshape", "date", "time",
   "dateTime", "image", "audio", "video", "file", "barcode",
   "calculate", "acknowledge", "hidden", "xml-external",
   "begin group", "end group", "begin repeat", "end repeat"]

def is_standard_type (c : Cell) : Bool :=
  if is_empty c then false
  else
    let s := pyStrip (c.getD "")
    decide (s ∈ standardTypes) || strStarts s "select_one " ||
      strStarts s "select_multiple "

/-- One type cell through the fix_field_types row loop: blank cells pass,
stripped unsupported types become text, select_one cells naming a legacy
location list are remapped, and any other non-standard type becomes text. -/
def fixTypeCell (c : Cell) : Cell :=
  if is_empty c then c
  else
    let s := pyStrip (c.getD "")
    if s ∈ unsupportedTypes then some "text"
    else if strStarts s "select_one " then
      if strHas s "sGovernorate" then some "select_one governorate"
      else if strHas s "sDistrict" then some "select_one district"
      else if strHas s "sSubdistrict" then some "select_one subdistrict"
      else c
    else if !is_standard_type c then some "text"
    else c

def fix_field_types (t : Table) : Table :=
  if "type" ∈ t.cols then ⟨t.cols, t.rows.map (updCol t.cols "type" fixTypeCell)⟩
  else t

def fallbackPairs : List (String × String) :=
  [("label::English", "Input for "), ("label::Arabic", "إدخال لـ "),
   ("hint::English", "Hint for "), ("hint::Arabic", "تلميح لـ ")]

/-- Fill one canonical cell with its template when the column exists and
the cell was blank in the original row snapshot. -/
def fillIfBlank (cols : List String) (orig : List Cell) (c : String)
    (v : String) (r : List Cell) : List Cell :=
  if c ∈ cols ∧ is_empty (getCell cols orig c) = true then setColRow cols c (some v) r
  else r

def fallbackRow (cols : List String) (r : List Cell) : List Cell :=
  let nm := getCell cols r "name"
  if is_empty nm then r
  else
    let n := nm.getD ""
    fillIfBlank cols r "hint::Arabic" ("تلميح لـ " ++ n)
      (fillIfBlank cols r "hint::English" ("Hint for " ++ n)
        (fillIfBlank cols r "label::Arabic" ("إدخال لـ " ++ n)
          (fillIfBlank cols r "label::English" ("Input for " ++ n) r)))

/-- Embedding of apply_fallbacks: rows with a blank name are untouched; a
row with a non-blank name has each blank canonical label/hint cell filled
with the fixed template embedding the name. -/
def apply_fallbacks (t : Table) : Table :=
  if "name" ∈ t.cols then ⟨t.cols, t.rows.map (fallbackRow t.cols)⟩ else t

def invalidExprPatterns : List String :=
  ["pulldata(", "duration(", "if(<", "if(=", "if(,)",
   "selected(,)", "(+())", "(*1)", "(*2)", "$\x7b"]

def has_invalid_expression (c : Cell) : Bool :=
  if is_empty c then false
  else invalidExprPatterns.any (fun p => strHas (c.getD "") p)

def calcCheckCols : List String :=
  ["calculation", "required", "relevant", "constraint", "choice_filter"]

def cleanCalcRow (cols : List String) (r : List Cell) : List Cell :=
  let bad := calcCheckCols.any (fun c =>
    decide (c ∈ cols) && !is_empty (getCell cols r c) &&
      has_invalid_expression (getCell cols r c))
  if bad && decide ("type" ∈ cols) then
    let r1 := setColRow cols "type" (some "text") r
    if "calculation" ∈ cols then setColRow cols "calculation" (some "") r1 else r1
  else r

/-- Embedding of clean_calculation_fields: a row whose expression columns
match any denylist fragment has its type forced to text and its
calculation cell blanked. -/
def clean_calculation_fields (t : Table) : Table :=
  ⟨t.cols, t.rows.map (cleanCalcRow t.cols)⟩

def cleanDefaultRow (cols : List String) (r : List Cell) : List Cell :=
  let v := getCell cols r "default"
  if !is_empty v && (strHas (v.getD "") "pulldata(" || strHas (v.getD "") "$\x7b") then
    setColRow cols "default" (some "") r
  else r

def clean_default_values (t : Table) : Table :=
  if "default" ∈ t.cols then ⟨t.cols, t.rows.map (cleanDefaultRow t.cols)⟩ else t

def typesOf (t : Table) : List Cell :=
  t.rows.map (fun r => getCell t.cols r "type")

/-- One scan step of validate_group_repeat_logic over a type cell: a begin
marker pushes, an end marker pops when the stack is non-empty (Nat
subtraction clamps at zero exactly as the guarded pop), anything else is
ignored. -/
def openStep (beginM endM : String) (s : Nat) (c : Cell) : Nat :=
  if is_empty c then s
  else
    let v := pyStrip (c.getD "")
    if v = beginM then s + 1 else if v = endM then s - 1 else s

/-- The begin/end stack of validate_group_repeat_logic reduced to its
size: the number of synthesized closing rows. -/
def openCount (beginM endM : String) (types : List Cell) : Nat :=
  types.foldl (openStep beginM endM) 0

def end_marker_row (cols : List String) (m : String) : List Cell :=
  cols.map (fun c => if c = "type" then some m else some "")

/-- Embedding of validate_group_repeat_logic: the unmatched repeat opens
are closed first, then the unmatched group opens, each by a synthesized
all-blank row carrying only the end marker, appended after the rows. -/
def validate_group_repeat_logic (t : Table) : Table :=
  if "type" ∈ t.cols then
    let r := openCount "begin repeat" "end repeat" (typesOf t)
    let g := openCount "begin group" "end group" (typesOf t)
    ⟨t.cols, t.rows ++ List.replicate r (end_marker_row t.cols "end repeat") ++
      List.replicate g (end_marker_row t.cols "end group")⟩
  else t

def seedCols : List String :=
  ["list_name", "name", "label::English", "label::Arabic", "governorate", "district"]

/-- The hardcoded 9-row location hierarchy of
create_standard_location_choices, as pd.DataFrame builds it from the three
dict lists: columns in first-appearance order, missing keys read as NaN. -/
def create_standard_location_choices : Table :=
  ⟨seedCols,
   [[some "governorate", some "baghdad", some "Baghdad", some "بغداد", none, none],
    [some "governorate", some "basra", some "Basra", some "البصرة", none, none],
    [some "governorate", some "erbil", some "Erbil", some "أربيل", none, none],
    [some "district", some "district1", some "District 1", some "المنطقة 1", some "baghdad", none],
    [some "district", some "district2", some "District 2", some "المنطقة 2", some "baghdad", none],
    [some "district", some "district3", some "District 3", some "المنطقة 3", some "basra", none],
    [some "subdistrict", some "subdistrict1", some "Subdistrict 1", some "الناحية 1", none, some "district1"],
    [some "subdistrict", some "subdistrict2", some "Subdistrict 2", some "الناحية 2", none, some "district1"],
    [some "subdistrict", some "subdistrict3", some "Subdistrict 3", some "الناحية 3", none, some "district2"]]⟩

def reservedLists : List String := ["governorate", "district", "subdistrict"]

def isReservedCell (v : Cell) : Bool :=
  match v with
  | some s => decide (s ∈ reservedLists)
  | none => false

/-- pd.concat([a, b], ignore_index=True): the columns are a's followed by
b's new ones, and every row of either side is re-read under the union
header, absent columns becoming NaN. -/
def concatTables (a b : Table) : Table :=
  let cols := a.cols ++ b.cols.filter (fun c => !decide (c ∈ a.cols))
  ⟨cols, a.rows.map (fun r => cols.map (getCell a.cols r)) ++
    b.rows.map (fun r => cols.map (getCell b.cols r))⟩

/-- Embedding of fix_cascading_selects: an empty (or absent) choices table
becomes the seed hierarchy alone; otherwise the rows under the three
reserved list names are removed and the seed rows appended.  Reading
choices_df[list_name] raises KeyError when the column is absent,
modelled by `.error ()`. -/
def fix_cascading_selects (t : Table) : Except Unit Table :=
  if t.rows = [] then .ok create_standard_location_choices
  else if "list_name" ∈ t.cols then
    let kept := t.rows.filter (fun r => !isReservedCell (getCell t.cols r "list_name"))
    .ok (concatTables ⟨t.cols, kept⟩ create_standard_location_choices)
  else .error ()

def firstCell (t : Table) (c : String) : Cell :=
  match t.rows with
  | [] => none
  | r :: _ => getCell t.cols r c

/-- df[c] = v as a scalar column assignment: every row gets v, and the
column is appended when absent. -/
def setColAll (t : Table) (c : String) (v : Cell) : Table :=
  if c ∈ t.cols then ⟨t.cols, t.rows.map (setColRow t.cols c v)⟩
  else ⟨t.cols ++ [c], t.rows.map (fun r => r ++ [v])⟩

/-- One required-field step of fix_settings_sheet: keep the table when the
column exists and its first cell is non-blank, otherwise assign the
fallback value to the whole column. -/
def ensure_field (t : Table) (c : String) (v : Cell) : Table :=
  if c ∈ t.cols ∧ is_empty (firstCell t c) = false then t else setColAll t c v

/-- Embedding of fix_settings_sheet: an empty settings table is rebuilt
from the form name; otherwise title and id are filled from the form name
when absent or blank in the first row, and the default language is
unconditionally forced to English. -/
def fix_settings_sheet (t : Table) (form_name : String) : Table :=
  if t.rows = [] then
    ⟨["form_title", "form_id", "default_language"],
     [[some form_name, some (normalize_name (some form_name)), some "English"]]⟩
  else
    setColAll
      (ensure_field (ensure_field t "form_title" (some form_name))
        "form_id" (some (normalize_name (some form_name))))
      "default_language" (some "English")

def unusedColumns : List String := ["style", "readonly", "publishable", "autoplay"]

/-- The per-column keep mask of df.dropna(axis=1, how='all'): a column is
kept when some row has a non-NaN cell there (an empty string counts as a
value and keeps the column). -/
def keepMask : List String → List (List Cell) → List Bool
  | [], _ => []
  | _ :: cs, rows =>
    (!rows.all (fun r => (r.head?.getD none).isNone)) :: keepMask cs (rows.map List.tail)

def maskList {α : Type} : List Bool → List α → List α
  | [], _ => []
  | _ :: _, [] => []
  | b :: bs, x :: xs => if b then x :: maskList bs xs else maskList bs xs

def dropAllNaN (t : Table) : Table :=
  let m := keepMask t.cols t.rows
  ⟨maskList m t.cols, t.rows.map (maskList m)⟩

/-- Embedding of remove_redundant_columns: drop the all-NaN columns, then
the fixed list of unused advanced columns. -/
def remove_redundant_columns (t : Table) : Table :=
  dropByNames (dropAllNaN t) unusedColumns

/-- The allowed output vocabulary exactly as the claims state it: literal
membership in the standard list, or a literal select_one / select_multiple
space-separated list reference.  This definition follows the wording of
the specification, for comparison with the code's is_standard_type. -/
def claimAllowedType (s : String) : Bool :=
  decide (s ∈ standardTypes) || strStarts s "select_one " ||
    strStarts s "select_multiple "

def typeIs (m : String) (c : Cell) : Bool :=
  !is_empty c && decide (pyStrip (c.getD "") = m)

def isOkE {α : Type} (e : Except Unit α) : Bool :=
  match e with
  | .ok _ => true
  | .error _ => false

/-- Two row lists are equivalent when they have the same length and every
row reads the same cell under every column name; this is row identity in
the data model of the specification, where a column absent from a row is
an implicitly blank cell. -/
def rowsEquiv (cs1 : List String) (rs1 : List (List Cell))
    (cs2 : List String) (rs2 : List (List Cell)) : Prop :=
  rs1.length = rs2.length ∧
    ∀ i c, getCell cs1 (rs1.getD i []) c = getCell cs2 (rs2.getD i []) c

instance {α : Type} [DecidableEq α] : DecidableEq (Except Unit α) :=
  fun a b =>
    match a, b with
    | .ok x, .ok y =>
        if h : x = y then isTrue (by rw [h]) else isFalse (by intro hc; cases hc; exact h rfl)
    | .ok _, .error _ => isFalse (by intro hc; cases hc)
    | .error _, .ok _ => isFalse (by intro hc; cases hc)
    | .error (), .error () => isTrue rfl

theorem getCell_nil (cols : List String) (c : String) : getCell cols [] c = none := by
  cases cols <;> rfl

theorem getCell_not_mem {cols : List String} {c : String} (h : c ∉ cols)
    (r : List Cell) : getCell cols r c = none := by
  induction cols generalizing r with
  | nil => rfl
  | cons c0 cs ih =>
    cases r with
    | nil => rfl
    | cons v vs =>
      simp only [getCell]
      rw [if_neg, ih (fun hc => h (List.mem_cons_of_mem _ hc))]
      intro he
      exact h (he ▸ List.mem_cons_self _ _)

theorem mem_of_getCell_some {cols : List String} {r : List Cell} {c : String}
    {x : String} (h : getCell cols r c = some x) : c ∈ cols := by
  by_contra hc
  rw [getCell_not_mem hc] at h
  exact Option.noConfusion h

theorem getCell_map_cols (cols : List String) (f : String → Cell) (c : String) :
    getCell cols (cols.map f) c = if c ∈ cols then f c else none := by
  induction cols with
  | nil => rfl
  | cons c0 cs ih =>
    simp only [List.map, getCell]
    by_cases h : c0 = c
    · subst h
      simp
    · rw [if_neg h, ih]
      by_cases hm : c ∈ cs
      · rw [if_pos hm, if_pos (List.mem_cons_of_mem _ hm)]
      · rw [if_neg hm, if_neg]
        intro hcc
        rcases List.mem_cons.mp hcc with h1 | h1
        · exact h h1.symm
        · exact hm h1

theorem getCell_updCol_ne {c tgt : String} (hne : c ≠ tgt) (cols : List String)
    (f : Cell → Cell) (r : List Cell) :
    getCell cols (updCol cols tgt f r) c = getCell cols r c := by
  induction cols generalizing r with
  | nil => rfl
  | cons c0 cs ih =>
    cases r with
    | nil => rfl
    | cons v vs =>
      simp only [updCol, List.zipWith, getCell]
      by_cases h0 : c0 = c
      · subst h0
        rw [if_pos rfl, if_pos rfl, if_neg hne]
      · rw [if_neg h0, if_neg h0]
        exact ih vs

theorem getCell_updCol_self_or (cols : List String) (tgt : String)
    (f : Cell → Cell) (r : List Cell) :
    getCell cols (updCol cols tgt f r) tgt = f (getCell cols r tgt) ∨
      getCell cols (updCol cols tgt f r) tgt = none := by
  induction cols generalizing r with
  | nil => exact Or.inr rfl
  | cons c0 cs ih =>
    cases r with
    | nil => exact Or.inr rfl
    | cons v vs =>
      simp only [updCol, List.zipWith, getCell] at ih ⊢
      by_cases h0 : c0 = tgt
      · simp [h0]
      · simp only [if_neg h0]
        exact ih vs

theorem getCell_updCol_of_some {cols : List String} {tgt : String}
    {r : List Cell} {x : String} (h : getCell cols r tgt = some x)
    (f : Cell → Cell) : getCell cols (updCol cols tgt f r) tgt = f (some x) := by
  induction cols generalizing r with
  | nil => simp [getCell] at h
  | cons c0 cs ih =>
    cases r with
    | nil => simp [getCell] at h
    | cons v vs =>
      simp only [updCol, List.zipWith, getCell] at h ih ⊢
      by_cases h0 : c0 = tgt
      · simp only [if_pos h0] at h ⊢
        rw [h]
      · simp only [if_neg h0] at h ⊢
        exact ih h

theorem length_updCol (cols : List String) (tgt : String) (f : Cell → Cell)
    (r : List Cell) : (updCol cols tgt f r).length = min cols.length r.length := by
  simp [updCol]

/-- C1: the Field Name Normalizer does NOT always produce pairwise-distinct
non-blank names: on input names age, age, age_1 it outputs age, age_1,
age_1 — the second and third cells collide, because the collision counter
of the base age and the literal input age_1 are never reconciled.  The
spec example Age, Age, age! does give age, age_1, age_2. -/
theorem C1_duplicate_names :
    ensure_unique_names ⟨["name"], [[some "age"], [some "age"], [some "age_1"]]⟩ =
      .ok ⟨["name"], [[some "age"], [some "age_1"], [some "age_1"]]⟩ ∧
    ensure_unique_names ⟨["name"], [[some "Age"], [some "Age"], [some "age!"]]⟩ =
      .ok ⟨["name"], [[some "age"], [some "age_1"], [some "age_2"]]⟩ := by
  constructor <;> decide

/-- C2 counterexample: the Cascading Select Fixer is not total — on a
non-empty choices table without a list_name column it raises (KeyError in
the source, `.error ()` here) instead of returning a table. -/
theorem C2_missing_column_raises :
    fix_cascading_selects ⟨["name"], [[some "x"]]⟩ = .error () := by
  decide

/-- C2 amended: a stage raises only on a missing indexed column — the Field
Name Normalizer returns a table exactly when the survey has a name column,
and the Cascading Select Fixer returns a table exactly when the choices
table is empty or has the list_name column.  (All other stages are plain
total functions of the embedding.) -/
theorem C2_stage_totality (t : Table) :
    (isOkE (ensure_unique_names t) = true ↔ "name" ∈ t.cols) ∧
    (isOkE (fix_cascading_selects t) = true ↔ (t.rows = [] ∨ "list_name" ∈ t.cols)) := by
  constructor
  · unfold ensure_unique_names
    by_cases h : "name" ∈ t.cols
    · simp [h, isOkE]
    · simp [h, isOkE]
  · unfold fix_cascading_selects
    by_cases h0 : t.rows = []
    · simp [h0, isOkE]
    · by_cases h1 : "list_name" ∈ t.cols
      · simp [h0, h1, isOkE]
      · simp [h0, h1, isOkE]

theorem fixTypeCell_spec (c : Cell) :
    is_empty (fixTypeCell c) = true ∨
      claimAllowedType (pyStrip ((fixTypeCell c).getD "")) = true := by
  simp only [fixTypeCell]
  split_ifs with h1 h2 h3 h4 h5 h6 h7
  · exact Or.inl h1
  · exact Or.inr (by decide)
  · exact Or.inr (by decide)
  · exact Or.inr (by decide)
  · exact Or.inr (by decide)
  · exact Or.inr (by simp [claimAllowedType, h3])
  · exact Or.inr (by decide)
  · refine Or.inr ?_
    have h8 : is_standard_type c = true := by
      cases hb : is_standard_type c
      · exact absurd (by simp [hb]) h7
      · rfl
    simpa [is_standard_type, h1, claimAllowedType] using h8

/-- C5 counterexample: a type cell that is a standard type padded with
whitespace is left unchanged by the Field Type Fixer, is not blank, and is
not in the allowed vocabulary by exact match or select prefix — the claim
holds only of the whitespace-stripped cell value. -/
theorem C5_exact_match_fails :
    fix_field_types ⟨["type"], [[some " text "]]⟩ = ⟨["type"], [[some " text "]]⟩ ∧
    is_empty (some " text ") = false ∧ claimAllowedType " text " = false := by
  refine ⟨by decide, by decide, by decide⟩

/-- C5 amended: after the Field Type Fixer, every row's type cell is blank
or its whitespace-stripped value is in the allowed vocabulary (exact match
against the standard list, or a select_one / select_multiple prefix with a
list suffix); the examples deviceid to text and select_one
sGovernorateList to select_one governorate hold as stated. -/
theorem C5_type_vocabulary :
    (∀ (t : Table), ∀ r ∈ (fix_field_types t).rows,
      is_empty (getCell t.cols r "type") = true ∨
        claimAllowedType (pyStrip ((getCell t.cols r "type").getD "")) = true) ∧
    fix_field_types ⟨["type"], [[some "deviceid"]]⟩ = ⟨["type"], [[some "text"]]⟩ ∧
    fix_field_types ⟨["type"], [[some "select_one sGovernorateList"]]⟩ =
      ⟨["type"], [[some "select_one governorate"]]⟩ := by
  refine ⟨?_, by decide, by decide⟩
  intro t r hr
  unfold fix_field_types at hr
  by_cases ht : "type" ∈ t.cols
  · rw [if_pos ht] at hr
    obtain ⟨r0, hr0, rfl⟩ := List.mem_map.mp hr
    rcases getCell_updCol_self_or t.cols "type" fixTypeCell r0 with h | h
    · rw [h]
      exact fixTypeCell_spec _
    · rw [h]
      exact Or.inl rfl
  · rw [if_neg ht] at hr
    rw [getCell_not_mem ht]
    exact Or.inl rfl

theorem C5_type_vocabulary_witness :
    [some "note"] ∈ (fix_field_types ⟨["type"], [[some "note"]]⟩).rows ∧
      (is_empty (getCell ["type"] [some "note"] "type") = true ∨
        claimAllowedType (pyStrip ((getCell ["type"] [some "note"] "type").getD "")) = true) :=
  ⟨by decide, C5_type_vocabulary.1 ⟨["type"], [[some "note"]]⟩ [some "note"] (by decide)⟩

theorem getD_map_of_lt {α β : Type} (F : α → β) (d : β) (dd : α) :
    ∀ (l : List α) (i : Nat), i < l.length → (l.map F).getD i d = F (l.getD i dd)
  | a :: as, 0, _ => by simp
  | a :: as, n + 1, h => by
    simp only [List.map, List.getD_cons_succ]
    exact getD_map_of_lt F d dd as n (by simpa using h)

theorem pyStrip_of_all_space {s : String} (h : s.data.all isSpaceCh = true) :
    pyStrip s = "" := by
  unfold pyStrip pyStripL
  have h1 : s.data.reverse.dropWhile isSpaceCh = [] := by
    rw [List.dropWhile_eq_nil_iff]
    intro x hx
    exact (List.all_eq_true.mp h) x (List.mem_reverse.mp hx)
  rw [h1]
  decide

theorem fixTypeCell_all_space {s : String} (hne : s ≠ "")
    (hsp : s.data.all isSpaceCh = true) : fixTypeCell (some s) = some "text" := by
  have hst : pyStrip s = "" := pyStrip_of_all_space hsp
  have hemp : is_empty (some s) = false := by simp [is_empty, hne]
  have hstd : is_standard_type (some s) = false := by
    simp only [is_standard_type, hemp, Option.getD_some, hst]
    decide
  simp only [fixTypeCell, hemp, Option.getD_some, hst, hstd]
  rw [if_neg (by decide : ¬ ((false : Bool) = true))]
  rw [if_neg (by decide : ¬ (("" : String) ∈ unsupportedTypes))]
  rw [if_neg (by decide : ¬ (strStarts "" "select_one " = true))]
  rw [if_pos (by decide : (!false) = true)]

/-- C10: a type cell that is a non-empty all-whitespace string is not
blank for is_empty, but its stripped value is the empty string, which is
outside the standard vocabulary, so the Field Type Fixer rewrites the cell
to text. -/
theorem C10_whitespace_type_to_text (t : Table) (i : Nat) (s : String)
    (hcell : getCell t.cols (t.rows.getD i []) "type" = some s)
    (hne : s ≠ "") (hsp : s.data.all isSpaceCh = true) :
    getCell t.cols ((fix_field_types t).rows.getD i []) "type" = some "text" := by
  have ht : "type" ∈ t.cols := mem_of_getCell_some hcell
  have hi : i < t.rows.length := by
    by_contra hip
    push_neg at hip
    rw [List.getD_eq_default _ _ hip, getCell_nil] at hcell
    exact Option.noConfusion hcell
  unfold fix_field_types
  rw [if_pos ht]
  rw [show ((⟨t.cols, t.rows.map (updCol t.cols "type" fixTypeCell)⟩ : Table)).rows =
    t.rows.map (updCol t.cols "type" fixTypeCell) from rfl]
  rw [getD_map_of_lt _ _ [] t.rows i hi]
  rw [getCell_updCol_of_some hcell, fixTypeCell_all_space hne hsp]

theorem C10_whitespace_type_to_text_witness :
    getCell ["type"] (([[some "  "]] : List (List Cell)).getD 0 []) "type" = some "  " ∧
      ("  " : String) ≠ "" ∧ ("  " : String).data.all isSpaceCh = true ∧
      getCell ["type"] ((fix_field_types ⟨["type"], [[some "  "]]⟩).rows.getD 0 []) "type" =
        some "text" :=
  ⟨by decide, by decide, by decide,
    C10_whitespace_type_to_text ⟨["type"], [[some "  "]]⟩ 0 "  " (by decide) (by decide) (by decide)⟩

theorem mem_of_mem_maskList {α : Type} {m : List Bool} {l : List α} {x : α}
    (h : x ∈ maskList m l) : x ∈ l := by
  induction m generalizing l with
  | nil => simp [maskList] at h
  | cons b bs ih =>
    cases l with
    | nil => simp [maskList] at h
    | cons a as =>
      simp only [maskList] at h
      by_cases hb : b = true
      · rw [if_pos hb] at h
        rcases List.mem_cons.mp h with h | h
        · exact h ▸ List.mem_cons_self _ _
        · exact List.mem_cons_of_mem _ (ih h)
      · rw [if_neg hb] at h
        exact List.mem_cons_of_mem _ (ih h)

theorem getCell_cons_self (c0 : String) (cs : List String) (r : List Cell) :
    getCell (c0 :: cs) r c0 = r.head?.getD none := by
  cases r with
  | nil => rfl
  | cons v vs => simp [getCell]

theorem getCell_cons_ne {c c0 : String} (h : c ≠ c0) (cs : List String)
    (r : List Cell) : getCell (c0 :: cs) r c = getCell cs r.tail c := by
  cases r with
  | nil => simp [getCell_nil]
  | cons v vs =>
    simp only [getCell, List.tail_cons]
    rw [if_neg (by intro he; exact h he.symm)]

theorem mem_masked_cols (c : String) :
    ∀ (cols : List String) (rows : List (List Cell)), cols.Nodup →
      (c ∈ maskList (keepMask cols rows) cols ↔
        c ∈ cols ∧ ∃ r ∈ rows, getCell cols r c ≠ none) := by
  intro cols
  induction cols with
  | nil => intro rows _; simp [keepMask, maskList]
  | cons c0 cs ih =>
    intro rows hnd
    have hnd0 : c0 ∉ cs := (List.nodup_cons.mp hnd).1
    have hndcs : cs.Nodup := (List.nodup_cons.mp hnd).2
    simp only [keepMask, maskList]
    by_cases hc : c = c0
    · subst hc
      by_cases hb : (!rows.all fun r => (r.head?.getD none).isNone) = true
      · rw [if_pos hb]
        constructor
        · intro _
          refine ⟨List.mem_cons_self _ _, ?_⟩
          by_contra hnone
          push_neg at hnone
          have hall : (rows.all fun r => (r.head?.getD none).isNone) = true := by
            rw [List.all_eq_true]
            intro r hr
            have hcell := hnone r hr
            rw [getCell_cons_self] at hcell
            simp [hcell]
          rw [hall] at hb
          exact absurd hb (by decide)
        · intro _
          exact List.mem_cons_self _ _
      · rw [if_neg hb]
        constructor
        · intro hmem
          exact absurd (mem_of_mem_maskList hmem) hnd0
        · rintro ⟨-, r, hr, hrn⟩
          have hall : (rows.all fun r => (r.head?.getD none).isNone) = true := by
            cases hx : (rows.all fun r => (r.head?.getD none).isNone)
            · rw [hx] at hb
              exact absurd (by decide) hb
            · rfl
          have hnn := List.all_eq_true.mp hall r hr
          rw [getCell_cons_self] at hrn
          rw [Option.isNone_iff_eq_none] at hnn
          exact absurd hnn hrn
    · have hstep : c ∈ (if (!rows.all fun r => (r.head?.getD none).isNone) = true
          then c0 :: maskList (keepMask cs (rows.map List.tail)) cs
          else maskList (keepMask cs (rows.map List.tail)) cs) ↔
          c ∈ maskList (keepMask cs (rows.map List.tail)) cs := by
        split_ifs
        · simp [List.mem_cons, hc]
        · exact Iff.rfl
      rw [hstep, ih (rows.map List.tail) hndcs]
      constructor
      · rintro ⟨hcs, r', hr', hrn⟩
        obtain ⟨r, hr, rfl⟩ := List.mem_map.mp hr'
        refine ⟨List.mem_cons_of_mem _ hcs, r, hr, ?_⟩
        rwa [getCell_cons_ne hc]
      · rintro ⟨hcc, r, hr, hrn⟩
        rcases List.mem_cons.mp hcc with h | h
        · exact absurd h hc
        · refine ⟨h, r.tail, List.mem_map_of_mem _ hr, ?_⟩
          rwa [getCell_cons_ne hc] at hrn

/-- C3 counterexample: a column whose sole cell is the empty string is
blank in every row in the claim's sense, yet the Redundant Column Pruner
keeps it — the pandas dropna pass treats only NaN-like cells as missing,
not empty strings. -/
theorem C3_blank_string_column_kept :
    remove_redundant_columns ⟨["a"], [[some ""]]⟩ = ⟨["a"], [[some ""]]⟩ ∧
      is_empty (some "") = true := by
  refine ⟨by decide, by decide⟩

/-- C3 amended: the Redundant Column Pruner keeps exactly the columns that
are not in the fixed unused list and hold a non-NaN cell in some row; a
column whose cells are all NaN/absent is dropped, but an empty-string cell
counts as present and keeps its column. -/
theorem C3_column_pruning (t : Table) (hnd : t.cols.Nodup) (c : String) :
    c ∈ (remove_redundant_columns t).cols ↔
      c ∈ t.cols ∧ c ∉ unusedColumns ∧ ∃ r ∈ t.rows, getCell t.cols r c ≠ none := by
  unfold remove_redundant_columns dropByNames dropAllNaN dropColsNames
  simp only [List.mem_filter, Bool.not_eq_true']
  rw [mem_masked_cols c t.cols t.rows hnd]
  constructor
  · rintro ⟨⟨hmem, hex⟩, hun⟩
    exact ⟨hmem, by simpa using hun, hex⟩
  · rintro ⟨hmem, hun, hex⟩
    exact ⟨⟨hmem, hex⟩, by simpa using hun⟩

theorem C3_column_pruning_witness :
    (["style", "a", "b"] : List String).Nodup ∧
      ("a" ∈ (remove_redundant_columns ⟨["style", "a", "b"], [[some "x", some "y", none]]⟩).cols ↔
        "a" ∈ (["style", "a", "b"] : List String) ∧ "a" ∉ unusedColumns ∧
          ∃ r ∈ [[some "x", some "y", none]],
            getCell ["style", "a", "b"] r "a" ≠ none) :=
  ⟨by decide,
    C3_column_pruning ⟨["style", "a", "b"], [[some "x", some "y", none]]⟩ (by decide) "a"⟩

theorem mem_addColIfMissing (t : Table) (x c : String) :
    c ∈ (addColIfMissing t x).cols ↔ c ∈ t.cols ∨ c = x := by
  unfold addColIfMissing
  split_ifs with h
  · constructor
    · exact Or.inl
    · rintro (hm | rfl)
      · exact hm
      · exact h
  · simp [List.mem_append]

theorem cols_nlcStep (t : Table) (c : String) : (nlcStep t c).cols = t.cols := by
  unfold nlcStep
  cases aliasTarget c <;> rfl

theorem cols_foldl_nlcStep (l : List String) (t : Table) :
    (l.foldl nlcStep t).cols = t.cols := by
  induction l generalizing t with
  | nil => rfl
  | cons a as ih => rw [List.foldl_cons, ih, cols_nlcStep]

theorem mem_nlc_t1_cols (t : Table) (c : String) :
    c ∈ (addColIfMissing (addColIfMissing (addColIfMissing
      (addColIfMissing t "label::English") "label::Arabic") "hint::English")
        "hint::Arabic").cols ↔ c ∈ t.cols ∨ c ∈ canonical4 := by
  rw [mem_addColIfMissing, mem_addColIfMissing, mem_addColIfMissing, mem_addColIfMissing]
  simp only [canonical4, List.mem_cons, List.not_mem_nil, or_false]
  tauto

theorem mem_nlc_cols (t : Table) (c : String) :
    c ∈ (normalize_language_columns t).cols ↔
      ((c ∈ t.cols ∨ c ∈ canonical4) ∧ ¬(c ∈ t.cols ∧ dropCondNLC c = true)) := by
  simp only [normalize_language_columns, dropByNames, dropColsNames]
  rw [List.mem_filter, cols_foldl_nlcStep, mem_nlc_t1_cols]
  constructor
  · rintro ⟨h1, h2⟩
    refine ⟨h1, ?_⟩
    rintro ⟨hc, hd⟩
    have hm : c ∈ t.cols.filter dropCondNLC := List.mem_filter.mpr ⟨hc, hd⟩
    simp [hm] at h2
  · rintro ⟨h1, h2⟩
    refine ⟨h1, ?_⟩
    have hm : c ∉ t.cols.filter dropCondNLC := by
      intro hmm
      exact h2 (by simpa using List.mem_filter.mp hmm)
    simp [hm]

theorem not_dropCond_starts {c : String} (h : dropCondNLC c = false)
    (h1 : c ≠ "label::English") (h2 : c ≠ "label::Arabic")
    (h3 : c ≠ "hint::English") (h4 : c ≠ "hint::Arabic") :
    strStarts c "label:" = false ∧ strStarts c "hint:" = false := by
  unfold dropCondNLC at h
  cases hl : strStarts c "label:"
  · cases hh : strStarts c "hint:"
    · exact ⟨rfl, rfl⟩
    · rw [hl, hh] at h
      simp [h1, h2, h3, h4] at h
  · rw [hl] at h
    simp [h1, h2, h3, h4] at h

/-- C4 counterexample: the plain label column survives normalization (its
value is merged into the canonical English label, but the column itself is
not dropped, since only names starting with a locale marker are removed),
contradicting the claim that the plain label alias is removed. -/
theorem C4_plain_label_kept :
    normalize_language_columns ⟨["label"], [[some "x"]]⟩ =
      ⟨["label", "label::English", "label::Arabic", "hint::English", "hint::Arabic"],
       [[some "x", some "x", some "", some "", some ""]]⟩ := by
  decide

/-- C4 amended: the Language Column Normalizer always outputs the four
canonical columns, and no surviving non-canonical column name carries a
label/hint locale marker; however the plain label and hint alias columns
are preserved, not removed. -/
theorem C4_canonical_columns (t : Table) :
    (∀ c ∈ canonical4, c ∈ (normalize_language_columns t).cols) ∧
    (∀ c ∈ (normalize_language_columns t).cols, c ∉ canonical4 →
      strStarts c "label:" = false ∧ strStarts c "hint:" = false) ∧
    ("label" ∈ t.cols → "label" ∈ (normalize_language_columns t).cols) ∧
    ("hint" ∈ t.cols → "hint" ∈ (normalize_language_columns t).cols) := by
  refine ⟨?_, ?_, ?_, ?_⟩
  · intro c hc
    rw [mem_nlc_cols]
    refine ⟨Or.inr hc, ?_⟩
    rintro ⟨-, hd⟩
    have hfalse : dropCondNLC c = false := by
      simp only [canonical4, List.mem_cons, List.not_mem_nil, or_false] at hc
      rcases hc with rfl | rfl | rfl | rfl <;> decide
    rw [hfalse] at hd
    exact Bool.noConfusion hd
  · intro c hmem hnc
    rw [mem_nlc_cols] at hmem
    obtain ⟨h1, h2⟩ := hmem
    have hct : c ∈ t.cols := by
      rcases h1 with h | h
      · exact h
      · exact absurd h hnc
    have hne1 : c ≠ "label::English" := fun he => hnc (by rw [he]; decide)
    have hne2 : c ≠ "label::Arabic" := fun he => hnc (by rw [he]; decide)
    have hne3 : c ≠ "hint::English" := fun he => hnc (by rw [he]; decide)
    have hne4 : c ≠ "hint::Arabic" := fun he => hnc (by rw [he]; decide)
    have hdf : dropCondNLC c = false := by
      cases hx : dropCondNLC c
      · rfl
      · exact absurd ⟨hct, hx⟩ h2
    exact not_dropCond_starts hdf hne1 hne2 hne3 hne4
  · intro h
    rw [mem_nlc_cols]
    refine ⟨Or.inl h, ?_⟩
    rintro ⟨-, hd⟩
    exact absurd hd (by decide)
  · intro h
    rw [mem_nlc_cols]
    refine ⟨Or.inl h, ?_⟩
    rintro ⟨-, hd⟩
    exact absurd hd (by decide)

theorem C4_canonical_columns_witness :
    ("label::English" ∈ canonical4) ∧
      "label::English" ∈ (normalize_language_columns ⟨["label"], [[some "x"]]⟩).cols :=
  ⟨by decide,
    (C4_canonical_columns ⟨["label"], [[some "x"]]⟩).1 "label::English" (by decide)⟩

theorem getD_mem_of_lt {α : Type} {l : List α} {i : Nat} (h : i < l.length)
    (d : α) : l.getD i d ∈ l := by
  induction l generalizing i with
  | nil => simp at h
  | cons a as ih =>
    cases i with
    | zero => simp [List.getD_cons_zero]
    | succ n =>
      rw [List.getD_cons_succ]
      exact List.mem_cons_of_mem _ (ih (by simpa using h))

theorem getCell_setColRow_self {cols : List String} {tgt : String}
    (hmem : tgt ∈ cols) : ∀ {r : List Cell}, cols.length ≤ r.length →
    ∀ v : Cell, getCell cols (setColRow cols tgt v r) tgt = v := by
  induction cols with
  | nil => exact absurd hmem (List.not_mem_nil _)
  | cons c0 cs ih =>
    intro r hlen v
    cases r with
    | nil => simp at hlen
    | cons w ws =>
      simp only [setColRow, updCol, List.zipWith, getCell] at ih ⊢
      by_cases h0 : c0 = tgt
      · simp only [if_pos h0]
      · simp only [if_neg h0]
        have hmem0 : tgt ∈ cs := by
          rcases List.mem_cons.mp hmem with h | h
          · exact absurd h.symm h0
          · exact h
        exact ih hmem0 (by simpa using hlen) v

theorem length_fillIfBlank (cols : List String) (orig : List Cell) (c : String)
    (v : String) {r : List Cell} (hlen : cols.length ≤ r.length) :
    cols.length ≤ (fillIfBlank cols orig c v r).length := by
  unfold fillIfBlank
  split_ifs
  · rw [setColRow, length_updCol]
    omega
  · exact hlen

theorem getCell_fillIfBlank_ne {x c : String} (hne : x ≠ c) (cols : List String)
    (orig : List Cell) (v : String) (r : List Cell) :
    getCell cols (fillIfBlank cols orig c v r) x = getCell cols r x := by
  unfold fillIfBlank
  split_ifs
  · exact getCell_updCol_ne hne cols _ r
  · rfl

theorem getCell_fillIfBlank_self {c : String} {cols : List String}
    (hmem : c ∈ cols) (orig : List Cell) (v : String) {r : List Cell}
    (hlen : cols.length ≤ r.length) :
    getCell cols (fillIfBlank cols orig c v r) c =
      if is_empty (getCell cols orig c) = true then some v else getCell cols r c := by
  unfold fillIfBlank
  split_ifs with h1 h2 h2
  · exact getCell_setColRow_self hmem hlen (some v)
  · exact absurd h1.2 h2
  · exact absurd ⟨hmem, h2⟩ h1
  · rfl

theorem append_ne_empty_left {a : String} (h : a.data ≠ []) (b : String) :
    a ++ b ≠ "" := by
  intro he
  have hd : (a ++ b).data = ([] : List Char) := by rw [he]
  have hap : (a ++ b).data = a.data ++ b.data := rfl
  rw [hap] at hd
  exact h (List.append_eq_nil.mp hd).1

theorem getCell_fallbackRow {cols : List String} {r : List Cell} {s : String}
    (hnm : getCell cols r "name" = some s) (hs : s ≠ "")
    (hlen : cols.length ≤ r.length) (p : String × String) (hp : p ∈ fallbackPairs)
    (hpc : p.1 ∈ cols) :
    getCell cols (fallbackRow cols r) p.1 =
      if is_empty (getCell cols r p.1) = true then some (p.2 ++ s)
      else getCell cols r p.1 := by
  have hemp : is_empty (getCell cols r "name") = false := by
    rw [hnm]
    simp [is_empty, hs]
  have hlen1 := length_fillIfBlank cols r "label::English" ("Input for " ++ s) hlen
  have hlen2 := length_fillIfBlank cols r "label::Arabic" ("إدخال لـ " ++ s) hlen1
  have hlen3 := length_fillIfBlank cols r "hint::English" ("Hint for " ++ s) hlen2
  simp only [fallbackRow, hnm, Option.getD_some]
  rw [if_neg (by simp [is_empty, hs])]
  simp only [fallbackPairs, List.mem_cons, List.not_mem_nil, or_false] at hp
  rcases hp with rfl | rfl | rfl | rfl
  · rw [getCell_fillIfBlank_ne (by decide), getCell_fillIfBlank_ne (by decide),
      getCell_fillIfBlank_ne (by decide), getCell_fillIfBlank_self hpc r _ hlen]
  · rw [getCell_fillIfBlank_ne (by decide), getCell_fillIfBlank_ne (by decide),
      getCell_fillIfBlank_self hpc r _ hlen1,
      getCell_fillIfBlank_ne (by decide)]
  · rw [getCell_fillIfBlank_ne (by decide),
      getCell_fillIfBlank_self hpc r _ hlen2,
      getCell_fillIfBlank_ne (by decide), getCell_fillIfBlank_ne (by decide)]
  · rw [getCell_fillIfBlank_self hpc r _ hlen3,
      getCell_fillIfBlank_ne (by decide), getCell_fillIfBlank_ne (by decide),
      getCell_fillIfBlank_ne (by decide)]

/-- C9: in a survey table carrying the four canonical language columns,
the Label/Hint Fallback Generator leaves rows with a blank name unchanged,
and for a row with non-blank name makes all four canonical cells
non-blank, filling each cell that was blank with its per-column template
around the field name and leaving non-blank cells untouched. -/
theorem C9_fallback_fill (t : Table) (hwf : t.WF)
    (hcanon : ∀ c ∈ canonical4, c ∈ t.cols) :
    (apply_fallbacks t).cols = t.cols ∧
    (apply_fallbacks t).rows.length = t.rows.length ∧
    ∀ i, i < t.rows.length →
      (is_empty (getCell t.cols (t.rows.getD i []) "name") = true →
        (apply_fallbacks t).rows.getD i [] = t.rows.getD i []) ∧
      (∀ s, getCell t.cols (t.rows.getD i []) "name" = some s → s ≠ "" →
        ∀ p ∈ fallbackPairs,
          is_empty (getCell t.cols ((apply_fallbacks t).rows.getD i []) p.1) = false ∧
          (is_empty (getCell t.cols (t.rows.getD i []) p.1) = true →
            getCell t.cols ((apply_fallbacks t).rows.getD i []) p.1 = some (p.2 ++ s)) ∧
          (is_empty (getCell t.cols (t.rows.getD i []) p.1) = false →
            getCell t.cols ((apply_fallbacks t).rows.getD i []) p.1 =
              getCell t.cols (t.rows.getD i []) p.1)) := by
  by_cases hname : "name" ∈ t.cols
  · have hout : apply_fallbacks t = ⟨t.cols, t.rows.map (fallbackRow t.cols)⟩ := by
      unfold apply_fallbacks
      rw [if_pos hname]
    rw [hout]
    refine ⟨rfl, by simp, ?_⟩
    intro i hi
    have hrow : (List.map (fallbackRow t.cols) t.rows).getD i [] =
        fallbackRow t.cols (t.rows.getD i []) := getD_map_of_lt _ _ [] t.rows i hi
    have hmem : t.rows.getD i [] ∈ t.rows := getD_mem_of_lt hi []
    have hlen : t.cols.length ≤ (t.rows.getD i []).length := by
      rw [hwf.2 _ hmem]
    constructor
    · intro hblank
      rw [hrow]
      simp only [fallbackRow]
      rw [if_pos hblank]
    · intro s hnm hs p hp
      have hpc : p.1 ∈ t.cols := by
        apply hcanon
        simp only [fallbackPairs, List.mem_cons, List.not_mem_nil, or_false] at hp
        rcases hp with rfl | rfl | rfl | rfl <;> decide
      have hfall := getCell_fallbackRow hnm hs hlen p hp hpc
      rw [hrow, hfall]
      by_cases hblank : is_empty (getCell t.cols (t.rows.getD i []) p.1) = true
      · rw [if_pos hblank]
        refine ⟨?_, fun _ => rfl, fun hnb => absurd (hblank.symm.trans hnb) (by decide)⟩
        have hp2 : p.2.data ≠ [] := by
          simp only [fallbackPairs, List.mem_cons, List.not_mem_nil, or_false] at hp
          rcases hp with rfl | rfl | rfl | rfl <;> decide
        simp [is_empty, append_ne_empty_left hp2 s]
      · rw [if_neg hblank]
        refine ⟨by simpa using hblank, fun hb => absurd hb hblank, fun _ => rfl⟩
  · have hout : apply_fallbacks t = t := by
      unfold apply_fallbacks
      rw [if_neg hname]
    rw [hout]
    refine ⟨rfl, rfl, ?_⟩
    intro i hi
    refine ⟨fun _ => rfl, ?_⟩
    intro s hnm hs p hp
    exact absurd (mem_of_getCell_some hnm) hname

theorem C9_fallback_fill_witness :
    Table.WF ⟨["name", "label::English", "label::Arabic", "hint::English", "hint::Arabic"],
      [[some "age", none, none, some "h", none]]⟩ ∧
    (∀ c ∈ canonical4,
      c ∈ (["name", "label::English", "label::Arabic", "hint::English", "hint::Arabic"] : List String)) ∧
    ((apply_fallbacks ⟨["name", "label::English", "label::Arabic", "hint::English", "hint::Arabic"],
      [[some "age", none, none, some "h", none]]⟩).cols =
        ["name", "label::English", "label::Arabic", "hint::English", "hint::Arabic"]) :=
  ⟨by decide, by decide,
    (C9_fallback_fill ⟨["name", "label::English", "label::Arabic", "hint::English", "hint::Arabic"],
      [[some "age", none, none, some "h", none]]⟩ (by decide) (by decide)).1⟩

theorem getCell_pad {cs U : List String} (hsub : ∀ x ∈ cs, x ∈ U)
    (r : List Cell) (c : String) :
    getCell U (U.map (getCell cs r)) c = getCell cs r c := by
  rw [getCell_map_cols]
  by_cases h : c ∈ U
  · rw [if_pos h]
  · rw [if_neg h, getCell_not_mem (fun hc => h (hsub c hc))]

/-- C7: on a non-empty choices table with a list_name column, the
Cascading Select Fixer succeeds, the output rows under the three reserved
list names are exactly the hardcoded 9-row seed hierarchy, and the rows
under every other list name are preserved in count and content (read
under the blank-for-absent row semantics of the data model). -/
theorem C7_cascading_seed (t : Table) (hne : t.rows ≠ []) (hln : "list_name" ∈ t.cols) :
    ∃ u, fix_cascading_selects t = .ok u ∧
      rowsEquiv u.cols
        (u.rows.filter (fun r => isReservedCell (getCell u.cols r "list_name")))
        seedCols create_standard_location_choices.rows ∧
      rowsEquiv u.cols
        (u.rows.filter (fun r => !isReservedCell (getCell u.cols r "list_name")))
        t.cols (t.rows.filter (fun r => !isReservedCell (getCell t.cols r "list_name"))) := by
  refine ⟨concatTables
    ⟨t.cols, t.rows.filter (fun r => !isReservedCell (getCell t.cols r "list_name"))⟩
    create_standard_location_choices, ?_, ?_, ?_⟩
  · unfold fix_cascading_selects
    rw [if_neg hne, if_pos hln]
  all_goals
    simp only [concatTables]
    set U := t.cols ++ create_standard_location_choices.cols.filter
      (fun c => !decide (c ∈ t.cols)) with hU
    set kept := t.rows.filter (fun r => !isReservedCell (getCell t.cols r "list_name"))
      with hkept
    have hsub1 : ∀ x ∈ t.cols, x ∈ U := fun x hx => List.mem_append_left _ hx
    have hsub2 : ∀ x ∈ create_standard_location_choices.cols, x ∈ U := by
      intro x hx
      by_cases h : x ∈ t.cols
      · exact List.mem_append_left _ h
      · exact List.mem_append_right _ (List.mem_filter.mpr ⟨hx, by simp [h]⟩)
    have hA : ∀ r c, getCell U (U.map (getCell t.cols r)) c = getCell t.cols r c :=
      fun r c => getCell_pad hsub1 r c
    have hB : ∀ r c, getCell U (U.map (getCell create_standard_location_choices.cols r)) c =
        getCell create_standard_location_choices.cols r c :=
      fun r c => getCell_pad hsub2 r c
  · -- reserved rows are exactly the seed rows
    rw [List.filter_append, List.filter_map, List.filter_map]
    have h1 : (kept.filter
        ((fun r => isReservedCell (getCell U r "list_name")) ∘
          (fun r => U.map (getCell t.cols r)))) = [] := by
      rw [List.filter_congr
        (fun r _ => by simp only [Function.comp]; rw [hA r "list_name"])]
      rw [hkept, List.filter_filter]
      rw [List.filter_congr (fun r _ => by
        cases isReservedCell (getCell t.cols r "list_name") <;> rfl)]
      exact List.filter_false _
    have h2 : (create_standard_location_choices.rows.filter
        ((fun r => isReservedCell (getCell U r "list_name")) ∘
          (fun r => U.map (getCell create_standard_location_choices.cols r)))) =
        create_standard_location_choices.rows := by
      rw [List.filter_congr
        (fun r _ => by simp only [Function.comp]; rw [hB r "list_name"])]
      decide
    rw [h1, h2]
    simp only [List.map_nil, List.nil_append]
    constructor
    · simp
    · intro i c
      by_cases hi : i < create_standard_location_choices.rows.length
      · rw [getD_map_of_lt _ _ [] _ i hi, hB]
        rfl
      · push_neg at hi
        rw [List.getD_eq_default _ _ (by simpa using hi),
          List.getD_eq_default _ _ hi, getCell_nil, getCell_nil]
  · -- non-reserved rows are the original non-reserved rows, padded
    rw [List.filter_append, List.filter_map, List.filter_map]
    have h1 : (kept.filter
        ((fun r => !isReservedCell (getCell U r "list_name")) ∘
          (fun r => U.map (getCell t.cols r)))) = kept := by
      rw [List.filter_congr
        (fun r _ => by simp only [Function.comp]; rw [hA r "list_name"])]
      rw [hkept, List.filter_filter]
      exact List.filter_congr (fun r _ => by
        cases isReservedCell (getCell t.cols r "list_name") <;> rfl)
    have h2 : (create_standard_location_choices.rows.filter
        ((fun r => !isReservedCell (getCell U r "list_name")) ∘
          (fun r => U.map (getCell create_standard_location_choices.cols r)))) = [] := by
      rw [List.filter_congr
        (fun r _ => by simp only [Function.comp]; rw [hB r "list_name"])]
      decide
    rw [h1, h2]
    simp only [List.map_nil, List.append_nil]
    constructor
    · simp
    · intro i c
      by_cases hi : i < kept.length
      · rw [getD_map_of_lt _ _ [] _ i hi, hA]
      · push_neg at hi
        rw [List.getD_eq_default _ _ (by simpa using hi),
          List.getD_eq_default _ _ hi, getCell_nil, getCell_nil]

theorem C7_cascading_seed_witness :
    (([[some "fruits", some "apple"], [some "governorate", some "old"]] :
        List (List Cell)) ≠ []) ∧
    ("list_name" ∈ (["list_name", "name"] : List String)) ∧
    ∃ u, fix_cascading_selects
        ⟨["list_name", "name"],
         [[some "fruits", some "apple"], [some "governorate", some "old"]]⟩ = .ok u ∧
      rowsEquiv u.cols
        (u.rows.filter (fun r => isReservedCell (getCell u.cols r "list_name")))
        seedCols create_standard_location_choices.rows ∧
      rowsEquiv u.cols
        (u.rows.filter (fun r => !isReservedCell (getCell u.cols r "list_name")))
        ["list_name", "name"]
        (([[some "fruits", some "apple"], [some "governorate", some "old"]] :
            List (List Cell)).filter
          (fun r => !isReservedCell (getCell ["list_name", "name"] r "list_name"))) :=
  ⟨by decide, by decide,
    C7_cascading_seed
      ⟨["list_name", "name"],
       [[some "fruits", some "apple"], [some "governorate", some "old"]]⟩
      (by decide) (by decide)⟩

theorem openCount_go {b e : String} (hne : b ≠ e) :
    ∀ (l : List Cell) (s : Nat),
      (∀ n, n ≤ l.length →
        List.countP (typeIs e) (l.take n) ≤ s + List.countP (typeIs b) (l.take n)) →
      l.foldl (openStep b e) s =
        s + List.countP (typeIs b) l - List.countP (typeIs e) l := by
  intro l
  induction l with
  | nil => intro s _; simp
  | cons c l' ih =>
    intro s hpre
    rw [List.foldl_cons]
    by_cases hE : is_empty c = true
    · have htb : typeIs b c = false := by simp [typeIs, hE]
      have hte : typeIs e c = false := by simp [typeIs, hE]
      have hstep : openStep b e s c = s := by simp [openStep, hE]
      have hyp : ∀ n, n ≤ l'.length →
          List.countP (typeIs e) (l'.take n) ≤ s + List.countP (typeIs b) (l'.take n) := by
        intro n hn
        have h2 := hpre (n + 1) (by simpa using hn)
        rw [List.take_succ_cons] at h2
        simp [List.countP_cons, htb, hte] at h2
        exact h2
      rw [hstep, ih s hyp]
      simp [List.countP_cons, htb, hte]
    · by_cases hvb : pyStrip (c.getD "") = b
      · have htb : typeIs b c = true := by simp [typeIs, hE, hvb]
        have hte : typeIs e c = false := by
          simp [typeIs, hE, hvb, hne]
        have hstep : openStep b e s c = s + 1 := by simp [openStep, hE, hvb]
        have hyp : ∀ n, n ≤ l'.length →
            List.countP (typeIs e) (l'.take n) ≤
              (s + 1) + List.countP (typeIs b) (l'.take n) := by
          intro n hn
          have h2 := hpre (n + 1) (by simpa using hn)
          rw [List.take_succ_cons] at h2
          simp [List.countP_cons, htb, hte] at h2
          omega
        rw [hstep, ih (s + 1) hyp]
        simp [List.countP_cons, htb, hte]
        omega
      · by_cases hve : pyStrip (c.getD "") = e
        · have htb : typeIs b c = false := by simp [typeIs, hE, hvb]
          have hte : typeIs e c = true := by simp [typeIs, hE, hve]
          have hstep : openStep b e s c = s - 1 := by
            simp [openStep, hE, hvb, hve, hne.symm]
          have hs1 : 1 ≤ s := by
            have h2 := hpre 1 (by simp)
            rw [List.take_succ_cons, List.take_zero] at h2
            simp [List.countP_cons, htb, hte] at h2
            omega
          have hyp : ∀ n, n ≤ l'.length →
              List.countP (typeIs e) (l'.take n) ≤
                (s - 1) + List.countP (typeIs b) (l'.take n) := by
            intro n hn
            have h2 := hpre (n + 1) (by simpa using hn)
            rw [List.take_succ_cons] at h2
            simp [List.countP_cons, htb, hte] at h2
            omega
          rw [hstep, ih (s - 1) hyp]
          simp [List.countP_cons, htb, hte]
          omega
        · have htb : typeIs b c = false := by simp [typeIs, hE, hvb]
          have hte : typeIs e c = false := by simp [typeIs, hE, hve]
          have hstep : openStep b e s c = s := by simp [openStep, hE, hvb, hve]
          have hyp : ∀ n, n ≤ l'.length →
              List.countP (typeIs e) (l'.take n) ≤
                s + List.countP (typeIs b) (l'.take n) := by
            intro n hn
            have h2 := hpre (n + 1) (by simpa using hn)
            rw [List.take_succ_cons] at h2
            simp [List.countP_cons, htb, hte] at h2
            exact h2
          rw [hstep, ih s hyp]
          simp [List.countP_cons, htb, hte]

/-- C8 counterexample: with the same marker counts (two begin repeat, one
end repeat, one begin group, one end group) but a stray end repeat before
any begin, the validator's guarded pop ignores the stray end and
synthesizes TWO end repeat rows, growing the table by two rows, not one. -/
theorem C8_stray_end_counts :
    validate_group_repeat_logic
      ⟨["type"], [[some "end repeat"], [some "begin repeat"], [some "begin repeat"],
        [some "begin group"], [some "end group"]]⟩ =
      ⟨["type"], [[some "end repeat"], [some "begin repeat"], [some "begin repeat"],
        [some "begin group"], [some "end group"], [some "end repeat"],
        [some "end repeat"]]⟩ ∧
    List.countP (typeIs "begin repeat") (typesOf
      ⟨["type"], [[some "end repeat"], [some "begin repeat"], [some "begin repeat"],
        [some "begin group"], [some "end group"]]⟩) = 2 ∧
    List.countP (typeIs "end repeat") (typesOf
      ⟨["type"], [[some "end repeat"], [some "begin repeat"], [some "begin repeat"],
        [some "begin group"], [some "end group"]]⟩) = 1 ∧
    List.countP (typeIs "begin group") (typesOf
      ⟨["type"], [[some "end repeat"], [some "begin repeat"], [some "begin repeat"],
        [some "begin group"], [some "end group"]]⟩) = 1 ∧
    List.countP (typeIs "end group") (typesOf
      ⟨["type"], [[some "end repeat"], [some "begin repeat"], [some "begin repeat"],
        [some "begin group"], [some "end group"]]⟩) = 1 := by
  refine ⟨by decide, by decide, by decide, by decide, by decide⟩

/-- C8 amended: under the stated marker counts AND the additional premise
that no end marker precedes its matching begin (in every prefix the end
count does not exceed the begin count, for repeats and for groups), the
validator appends exactly one synthesized end repeat row, whose other
cells are blank, after the pre-existing rows, growing the table by one. -/
theorem C8_balanced_completion (t : Table) (htype : "type" ∈ t.cols)
    (hbr : List.countP (typeIs "begin repeat") (typesOf t) = 2)
    (her : List.countP (typeIs "end repeat") (typesOf t) = 1)
    (hbg : List.countP (typeIs "begin group") (typesOf t) = 1)
    (heg : List.countP (typeIs "end group") (typesOf t) = 1)
    (hpr : ∀ n, n ≤ (typesOf t).length →
      List.countP (typeIs "end repeat") ((typesOf t).take n) ≤
        List.countP (typeIs "begin repeat") ((typesOf t).take n))
    (hpg : ∀ n, n ≤ (typesOf t).length →
      List.countP (typeIs "end group") ((typesOf t).take n) ≤
        List.countP (typeIs "begin group") ((typesOf t).take n)) :
    validate_group_repeat_logic t =
      ⟨t.cols, t.rows ++ [end_marker_row t.cols "end repeat"]⟩ := by
  unfold validate_group_repeat_logic
  rw [if_pos htype]
  have hr : openCount "begin repeat" "end repeat" (typesOf t) = 1 := by
    unfold openCount
    rw [openCount_go (by decide) (typesOf t) 0 (by simpa using hpr), hbr, her]
  have hg : openCount "begin group" "end group" (typesOf t) = 0 := by
    unfold openCount
    rw [openCount_go (by decide) (typesOf t) 0 (by simpa using hpg), hbg, heg]
  rw [hr, hg]
  simp

theorem C8_balanced_completion_witness :
    validate_group_repeat_logic
      ⟨["type", "name"], [[some "begin repeat", some "r1"],
        [some "begin repeat", some "r2"], [some "end repeat", none],
        [some "begin group", some "g"], [some "end group", none]]⟩ =
      ⟨["type", "name"], [[some "begin repeat", some "r1"],
        [some "begin repeat", some "r2"], [some "end repeat", none],
        [some "begin group", some "g"], [some "end group", none]] ++
        [end_marker_row ["type", "name"] "end repeat"]⟩ :=
  C8_balanced_completion
    ⟨["type", "name"], [[some "begin repeat", some "r1"],
      [some "begin repeat", some "r2"], [some "end repeat", none],
      [some "begin group", some "g"], [some "end group", none]]⟩
    (by decide) (by decide) (by decide) (by decide) (by decide)
    (by decide) (by decide)

theorem updCol_not_mem {tgt : String} :
    ∀ (cols : List String), tgt ∉ cols → ∀ (f : Cell → Cell) (r : List Cell),
      r.length ≤ cols.length → updCol cols tgt f r = r := by
  intro cols
  induction cols with
  | nil =>
    intro _ f r hlen
    cases r with
    | nil => rfl
    | cons v vs => simp at hlen
  | cons c0 cs ih =>
    intro hmem f r hlen
    cases r with
    | nil => rfl
    | cons v vs =>
      simp only [updCol, List.zipWith]
      rw [if_neg (fun h : c0 = tgt => hmem (by rw [← h]; exact List.mem_cons_self _ _))]
      have : updCol cs tgt f vs = vs :=
        ih (fun h => hmem (List.mem_cons_of_mem _ h)) f vs (by simpa using hlen)
      simp only [updCol] at this
      rw [this]

theorem updCol_comm {t1 t2 : String} (hne : t1 ≠ t2) :
    ∀ (cols : List String) (f g : Cell → Cell) (r : List Cell),
      updCol cols t1 f (updCol cols t2 g r) = updCol cols t2 g (updCol cols t1 f r) := by
  intro cols
  induction cols with
  | nil => intro f g r; rfl
  | cons c0 cs ih =>
    intro f g r
    cases r with
    | nil => rfl
    | cons v vs =>
      simp only [updCol, List.zipWith]
      have htail := ih f g vs
      simp only [updCol] at htail
      rw [htail]
      by_cases h1 : c0 = t1
      · have h2 : ¬ c0 = t2 := by rw [h1]; exact hne
        simp only [if_pos h1, if_neg h2]
      · by_cases h2 : c0 = t2
        · simp only [if_pos h2, if_neg h1]
        · simp only [if_neg h1, if_neg h2]

theorem updCol_updCol_same :
    ∀ (cols : List String) (tgt : String) (f g : Cell → Cell) (r : List Cell),
      updCol cols tgt f (updCol cols tgt g r) =
        updCol cols tgt (fun v => f (g v)) r := by
  intro cols
  induction cols with
  | nil => intro tgt f g r; rfl
  | cons c0 cs ih =>
    intro tgt f g r
    cases r with
    | nil => rfl
    | cons v vs =>
      simp only [updCol, List.zipWith]
      have htail := ih tgt f g vs
      simp only [updCol] at htail
      rw [htail]
      by_cases h0 : c0 = tgt
      · rw [if_pos h0, if_pos h0, if_pos h0]
      · rw [if_neg h0, if_neg h0, if_neg h0]

theorem updCol_congr {f g : Cell → Cell} (h : ∀ v, f v = g v) :
    ∀ (cols : List String) (tgt : String) (r : List Cell),
      updCol cols tgt f r = updCol cols tgt g r := by
  intro cols
  induction cols with
  | nil => intro tgt r; rfl
  | cons c0 cs ih =>
    intro tgt r
    cases r with
    | nil => rfl
    | cons v vs =>
      simp only [updCol, List.zipWith]
      have htail := ih tgt vs
      simp only [updCol] at htail
      rw [htail]
      by_cases h0 : c0 = tgt
      · rw [if_pos h0, if_pos h0, h v]
      · rw [if_neg h0, if_neg h0]

theorem updCol_eq_of_fix {tgt : String} :
    ∀ (cols : List String), cols.Nodup → ∀ (f : Cell → Cell) (r : List Cell),
      r.length ≤ cols.length → f (getCell cols r tgt) = getCell cols r tgt →
      updCol cols tgt f r = r := by
  intro cols
  induction cols with
  | nil =>
    intro _ f r hlen _
    cases r with
    | nil => rfl
    | cons v vs => simp at hlen
  | cons c0 cs ih =>
    intro hnd f r hlen hfix
    cases r with
    | nil => rfl
    | cons v vs =>
      simp only [updCol, List.zipWith]
      by_cases h0 : c0 = tgt
      · have hv : f v = v := by
          have : getCell (c0 :: cs) (v :: vs) tgt = v := by
            simp [getCell, h0]
          rw [this] at hfix
          exact hfix
        rw [if_pos h0, hv]
        have hnm : tgt ∉ cs := h0 ▸ (List.nodup_cons.mp hnd).1
        have := updCol_not_mem cs hnm f vs (by simpa using hlen)
        simp only [updCol] at this
        rw [this]
      · rw [if_neg h0]
        have hget : getCell (c0 :: cs) (v :: vs) tgt = getCell cs vs tgt := by
          simp [getCell, h0]
        rw [hget] at hfix
        have := ih (List.nodup_cons.mp hnd).2 f vs (by simpa using hlen) hfix
        simp only [updCol] at this
        rw [this]

theorem getCell_updCol_covered {tgt : String} :
    ∀ (cols : List String), tgt ∈ cols → ∀ (f : Cell → Cell) (r : List Cell),
      cols.length ≤ r.length →
      getCell cols (updCol cols tgt f r) tgt = f (getCell cols r tgt) := by
  intro cols
  induction cols with
  | nil => intro hmem; exact absurd hmem (List.not_mem_nil _)
  | cons c0 cs ih =>
    intro hmem f r hlen
    cases r with
    | nil => simp at hlen
    | cons v vs =>
      simp only [updCol, List.zipWith, getCell]
      by_cases h0 : c0 = tgt
      · simp only [if_pos h0]
      · simp only [if_neg h0]
        have hmem0 : tgt ∈ cs := by
          rcases List.mem_cons.mp hmem with h | h
          · exact absurd h.symm h0
          · exact h
        have := ih hmem0 f vs (by simpa using hlen)
        simp only [updCol] at this
        exact this

theorem getCell_updCol_self_strong :
    ∀ (cols : List String) (tgt : String) (f : Cell → Cell) (r : List Cell),
      getCell cols (updCol cols tgt f r) tgt = f (getCell cols r tgt) ∨
        (getCell cols (updCol cols tgt f r) tgt = none ∧
          getCell cols r tgt = none) := by
  intro cols
  induction cols with
  | nil => intro tgt f r; exact Or.inr ⟨rfl, rfl⟩
  | cons c0 cs ih =>
    intro tgt f r
    cases r with
    | nil => exact Or.inr ⟨rfl, rfl⟩
    | cons v vs =>
      simp only [updCol, List.zipWith, getCell]
      by_cases h0 : c0 = tgt
      · simp [if_pos h0]
      · simp only [if_neg h0]
        have := ih tgt f vs
        simp only [updCol] at this
        exact this

theorem fixTypeCell_outputs (c : Cell) :
    fixTypeCell c = c ∨ fixTypeCell c = some "text" ∨
      fixTypeCell c = some "select_one governorate" ∨
      fixTypeCell c = some "select_one district" ∨
      fixTypeCell c = some "select_one subdistrict" := by
  simp only [fixTypeCell]
  split_ifs <;> simp

theorem fixTypeCell_idem (c : Cell) : fixTypeCell (fixTypeCell c) = fixTypeCell c := by
  rcases fixTypeCell_outputs c with h | h | h | h | h <;> rw [h]
  · rw [h]
  · decide
  · decide
  · decide
  · decide

theorem fft_idem (t : Table) :
    fix_field_types (fix_field_types t) = fix_field_types t := by
  unfold fix_field_types
  by_cases ht : "type" ∈ t.cols
  · rw [if_pos ht]
    rw [if_pos (by simpa using ht)]
    simp only [List.map_map]
    congr 1
    apply List.map_congr_left
    intro r _
    simp only [Function.comp]
    rw [updCol_updCol_same]
    exact updCol_congr (fun v => fixTypeCell_idem v) _ _ _
  · rw [if_neg ht, if_neg ht]

theorem setColRow_setColRow_same (cols : List String) (c : String) (v : Cell)
    (r : List Cell) : setColRow cols c v (setColRow cols c v r) = setColRow cols c v r := by
  unfold setColRow
  rw [updCol_updCol_same]

theorem cleanCalcRow_idem (cols : List String) (r : List Cell) :
    cleanCalcRow cols (cleanCalcRow cols r) = cleanCalcRow cols r := by
  by_cases hc : (calcCheckCols.any (fun c =>
      decide (c ∈ cols) && !is_empty (getCell cols r c) &&
        has_invalid_expression (getCell cols r c)) && decide ("type" ∈ cols)) = true
  · have h1 : cleanCalcRow cols r =
        (if "calculation" ∈ cols then
          setColRow cols "calculation" (some "")
            (setColRow cols "type" (some "text") r)
        else setColRow cols "type" (some "text") r) := by
      unfold cleanCalcRow
      rw [if_pos hc]
    set r1 := cleanCalcRow cols r with hr1
    by_cases hc2 : (calcCheckCols.any (fun c =>
        decide (c ∈ cols) && !is_empty (getCell cols r1 c) &&
          has_invalid_expression (getCell cols r1 c)) && decide ("type" ∈ cols)) = true
    · have h2 : cleanCalcRow cols r1 =
          (if "calculation" ∈ cols then
            setColRow cols "calculation" (some "")
              (setColRow cols "type" (some "text") r1)
          else setColRow cols "type" (some "text") r1) := by
        unfold cleanCalcRow
        rw [if_pos hc2]
      rw [h2, h1]
      by_cases hcal : "calculation" ∈ cols
      · rw [if_pos hcal, if_pos hcal]
        rw [show setColRow cols "type" (some "text")
            (setColRow cols "calculation" (some "")
              (setColRow cols "type" (some "text") r)) =
          setColRow cols "calculation" (some "")
            (setColRow cols "type" (some "text")
              (setColRow cols "type" (some "text") r)) from
          updCol_comm (by decide) cols _ _ _]
        rw [setColRow_setColRow_same, setColRow_setColRow_same]
      · rw [if_neg hcal, if_neg hcal, setColRow_setColRow_same]
    · unfold cleanCalcRow
      rw [if_neg hc2]
  · have h1 : cleanCalcRow cols r = r := by
      unfold cleanCalcRow
      rw [if_neg hc]
    rw [h1, h1]

theorem ccf_idem (t : Table) :
    clean_calculation_fields (clean_calculation_fields t) = clean_calculation_fields t := by
  unfold clean_calculation_fields
  simp only [List.map_map]
  congr 1
  apply List.map_congr_left
  intro r _
  simp only [Function.comp]
  exact cleanCalcRow_idem t.cols r

theorem cleanDefaultRow_idem (cols : List String) (r : List Cell) :
    cleanDefaultRow cols (cleanDefaultRow cols r) = cleanDefaultRow cols r := by
  by_cases hc : (!is_empty (getCell cols r "default") &&
      (strHas ((getCell cols r "default").getD "") "pulldata(" ||
        strHas ((getCell cols r "default").getD "") "$\x7b")) = true
  · have h1 : cleanDefaultRow cols r = setColRow cols "default" (some "") r := by
      unfold cleanDefaultRow
      rw [if_pos hc]
    rw [h1]
    have hblank : is_empty (getCell cols
        (setColRow cols "default" (some "") r) "default") = true := by
      rcases getCell_updCol_self_strong cols "default" (fun _ => some "") r with h | h
      · rw [show setColRow cols "default" (some "") r =
          updCol cols "default" (fun _ => some "") r from rfl, h]
        rfl
      · rw [show setColRow cols "default" (some "") r =
          updCol cols "default" (fun _ => some "") r from rfl, h.1]
        rfl
    unfold cleanDefaultRow
    rw [if_neg (by simp [hblank])]
  · have h1 : cleanDefaultRow cols r = r := by
      unfold cleanDefaultRow
      rw [if_neg hc]
    rw [h1, h1]

theorem cdv_idem (t : Table) :
    clean_default_values (clean_default_values t) = clean_default_values t := by
  unfold clean_default_values
  by_cases hd : "default" ∈ t.cols
  · rw [if_pos hd, if_pos (by simpa using hd)]
    simp only [List.map_map]
    congr 1
    apply List.map_congr_left
    intro r _
    simp only [Function.comp]
    exact cleanDefaultRow_idem t.cols r
  · rw [if_neg hd, if_neg hd]

theorem getCell_append_one {x d : String} (hne : x ≠ d) :
    ∀ (cols : List String) (r : List Cell), r.length = cols.length →
      ∀ w : Cell, getCell (cols ++ [d]) (r ++ [w]) x = getCell cols r x := by
  intro cols
  induction cols with
  | nil =>
    intro r hlen w
    cases r with
    | nil =>
      simp only [List.nil_append, getCell]
      rw [if_neg (fun h => hne h.symm)]
    | cons v vs => simp at hlen
  | cons c0 cs ih =>
    intro r hlen w
    cases r with
    | nil => simp at hlen
    | cons v vs =>
      simp only [List.cons_append, getCell]
      by_cases h0 : c0 = x
      · rw [if_pos h0, if_pos h0]
      · rw [if_neg h0, if_neg h0]
        exact ih vs (by simpa using hlen) w

theorem updCol_append_one (cols : List String) (tgt d : String) (f : Cell → Cell)
    {r : List Cell} (hlen : r.length = cols.length) (w : Cell) :
    updCol (cols ++ [d]) tgt f (r ++ [w]) =
      updCol cols tgt f r ++ [if d = tgt then f w else w] := by
  unfold updCol
  rw [List.zipWith_append _ _ _ _ _ hlen.symm]
  rfl

theorem mem_setColAll_cols (t : Table) (d x : String) (w : Cell) :
    x ∈ (setColAll t d w).cols ↔ x ∈ t.cols ∨ x = d := by
  unfold setColAll
  split_ifs with h
  · constructor
    · exact Or.inl
    · rintro (hm | rfl)
      · exact hm
      · exact h
  · simp [List.mem_append]

theorem rows_length_setColAll (t : Table) (d : String) (w : Cell) :
    (setColAll t d w).rows.length = t.rows.length := by
  unfold setColAll
  split_ifs <;> simp

theorem setColAll_WF {t : Table} (hwf : t.WF) (d : String) (w : Cell) :
    (setColAll t d w).WF := by
  unfold setColAll
  split_ifs with h
  · refine ⟨hwf.1, ?_⟩
    intro r hr
    obtain ⟨r0, hr0, rfl⟩ := List.mem_map.mp hr
    rw [show (setColRow t.cols d w r0) = updCol t.cols d (fun _ => w) r0 from rfl,
      length_updCol, hwf.2 r0 hr0]
    simp
  · refine ⟨?_, ?_⟩
    · simp only [List.nodup_append]
      exact ⟨hwf.1, List.nodup_singleton _, by simpa using h⟩
    · intro r hr
      obtain ⟨r0, hr0, rfl⟩ := List.mem_map.mp hr
      simp [hwf.2 r0 hr0]

theorem firstCell_setColAll_ne {t : Table} (hwf : t.WF) {x d : String}
    (hne : x ≠ d) (w : Cell) : firstCell (setColAll t d w) x = firstCell t x := by
  unfold setColAll firstCell
  cases hrows : t.rows with
  | nil => split_ifs <;> simp [hrows]
  | cons r0 rest =>
    split_ifs with h
    · simp only [hrows, List.map_cons]
      exact getCell_updCol_ne hne t.cols _ r0
    · simp only [hrows, List.map_cons]
      exact getCell_append_one hne t.cols r0
        (hwf.2 r0 (hrows ▸ List.mem_cons_self _ _)) w

theorem setColAll_establish {t : Table} (hwf : t.WF) (d : String) (w : Cell) :
    ∀ r ∈ (setColAll t d w).rows, setColRow (setColAll t d w).cols d w r = r := by
  unfold setColAll
  split_ifs with h
  · intro r hr
    obtain ⟨r0, hr0, rfl⟩ := List.mem_map.mp hr
    exact setColRow_setColRow_same t.cols d w r0
  · intro r hr
    obtain ⟨r0, hr0, rfl⟩ := List.mem_map.mp hr
    show updCol (t.cols ++ [d]) d (fun _ => w) (r0 ++ [w]) = r0 ++ [w]
    rw [updCol_append_one t.cols d d _ (hwf.2 r0 hr0) w]
    rw [if_pos rfl, updCol_not_mem t.cols h _ r0 (le_of_eq (hwf.2 r0 hr0))]

theorem setColAll_preserve {t : Table} (hwf : t.WF) {c d : String} (hne : d ≠ c)
    {v : Cell} (hst : ∀ r ∈ t.rows, setColRow t.cols c v r = r) (w : Cell) :
    ∀ r ∈ (setColAll t d w).rows, setColRow (setColAll t d w).cols c v r = r := by
  unfold setColAll
  split_ifs with h
  · intro r hr
    obtain ⟨r0, hr0, rfl⟩ := List.mem_map.mp hr
    show updCol t.cols c (fun _ => v) (updCol t.cols d (fun _ => w) r0) =
      updCol t.cols d (fun _ => w) r0
    rw [updCol_comm (fun he => hne he.symm) t.cols _ _ r0]
    rw [show updCol t.cols c (fun _ => v) r0 = setColRow t.cols c v r0 from rfl,
      hst r0 hr0]
  · intro r hr
    obtain ⟨r0, hr0, rfl⟩ := List.mem_map.mp hr
    show updCol (t.cols ++ [d]) c (fun _ => v) (r0 ++ [w]) = r0 ++ [w]
    rw [updCol_append_one t.cols c d _ (hwf.2 r0 hr0) w, if_neg hne]
    rw [show updCol t.cols c (fun _ => v) r0 = setColRow t.cols c v r0 from rfl,
      hst r0 hr0]

theorem setColAll_of_stable {t : Table} {c : String} {v : Cell}
    (hmem : c ∈ t.cols) (hst : ∀ r ∈ t.rows, setColRow t.cols c v r = r) :
    setColAll t c v = t := by
  unfold setColAll
  rw [if_pos hmem]
  have : t.rows.map (setColRow t.cols c v) = t.rows := by
    rw [List.map_congr_left hst]
    exact List.map_id _
  rw [this]

theorem ensure_field_WF {t : Table} (hwf : t.WF) (c : String) (v : Cell) :
    (ensure_field t c v).WF := by
  unfold ensure_field
  split_ifs
  · exact hwf
  · exact setColAll_WF hwf c v

theorem mem_ensure_field_cols_of_mem {t : Table} {x : String} (hx : x ∈ t.cols)
    (c : String) (v : Cell) : x ∈ (ensure_field t c v).cols := by
  unfold ensure_field
  split_ifs
  · exact hx
  · exact (mem_setColAll_cols t c x v).mpr (Or.inl hx)

theorem mem_ensure_field_cols_self (t : Table) (c : String) (v : Cell) :
    c ∈ (ensure_field t c v).cols := by
  unfold ensure_field
  split_ifs with h
  · exact h.1
  · exact (mem_setColAll_cols t c c v).mpr (Or.inr rfl)

theorem rows_length_ensure_field (t : Table) (c : String) (v : Cell) :
    (ensure_field t c v).rows.length = t.rows.length := by
  unfold ensure_field
  split_ifs
  · rfl
  · exact rows_length_setColAll t c v

theorem firstCell_ensure_field_ne {t : Table} (hwf : t.WF) {x c : String}
    (hne : x ≠ c) (v : Cell) : firstCell (ensure_field t c v) x = firstCell t x := by
  unfold ensure_field
  split_ifs
  · rfl
  · exact firstCell_setColAll_ne hwf hne v

theorem ensure_field_spec {t : Table} (hwf : t.WF) (c : String) (v : Cell) :
    is_empty (firstCell (ensure_field t c v) c) = false ∨
      ∀ r ∈ (ensure_field t c v).rows,
        setColRow (ensure_field t c v).cols c v r = r := by
  unfold ensure_field
  split_ifs with h
  · exact Or.inl h.2
  · exact Or.inr (setColAll_establish hwf c v)

theorem ensure_field_preserve_stable {t : Table} (hwf : t.WF) {c d : String}
    (hne : d ≠ c) {v : Cell}
    (hst : ∀ r ∈ t.rows, setColRow t.cols c v r = r) (w : Cell) :
    ∀ r ∈ (ensure_field t d w).rows,
      setColRow (ensure_field t d w).cols c v r = r := by
  unfold ensure_field
  split_ifs
  · exact hst
  · exact setColAll_preserve hwf hne hst w

theorem ensure_field_fixpoint {t : Table} {c : String} {v : Cell}
    (hmem : c ∈ t.cols)
    (hok : is_empty (firstCell t c) = false ∨
      ∀ r ∈ t.rows, setColRow t.cols c v r = r) :
    ensure_field t c v = t := by
  unfold ensure_field
  by_cases hcond : c ∈ t.cols ∧ is_empty (firstCell t c) = false
  · rw [if_pos hcond]
  · rw [if_neg hcond]
    rcases hok with h | h
    · exact absurd ⟨hmem, h⟩ hcond
    · exact setColAll_of_stable hmem h

theorem fss_T0 (fn : String) :
    fix_settings_sheet
      ⟨["form_title", "form_id", "default_language"],
       [[some fn, some (normalize_name (some fn)), some "English"]]⟩ fn =
      ⟨["form_title", "form_id", "default_language"],
       [[some fn, some (normalize_name (some fn)), some "English"]]⟩ := by
  have hst1 : ∀ r ∈ ([[some fn, some (normalize_name (some fn)), some "English"]] :
      List (List Cell)),
      setColRow ["form_title", "form_id", "default_language"] "form_title"
        (some fn) r = r := by
    intro r hr
    rw [List.mem_singleton.mp hr]
    simp [setColRow, updCol, List.zipWith]
  have hst2 : ∀ r ∈ ([[some fn, some (normalize_name (some fn)), some "English"]] :
      List (List Cell)),
      setColRow ["form_title", "form_id", "default_language"] "form_id"
        (some (normalize_name (some fn))) r = r := by
    intro r hr
    rw [List.mem_singleton.mp hr]
    simp [setColRow, updCol, List.zipWith]
  have hst3 : ∀ r ∈ ([[some fn, some (normalize_name (some fn)), some "English"]] :
      List (List Cell)),
      setColRow ["form_title", "form_id", "default_language"] "default_language"
        (some "English") r = r := by
    intro r hr
    rw [List.mem_singleton.mp hr]
    simp [setColRow, updCol, List.zipWith]
  have e1 : ensure_field
      ⟨["form_title", "form_id", "default_language"],
       [[some fn, some (normalize_name (some fn)), some "English"]]⟩
      "form_title" (some fn) =
      ⟨["form_title", "form_id", "default_language"],
       [[some fn, some (normalize_name (some fn)), some "English"]]⟩ :=
    ensure_field_fixpoint
      (by show "form_title" ∈ ["form_title", "form_id", "default_language"]; decide)
      (Or.inr hst1)
  have e2 : ensure_field
      ⟨["form_title", "form_id", "default_language"],
       [[some fn, some (normalize_name (some fn)), some "English"]]⟩
      "form_id" (some (normalize_name (some fn))) =
      ⟨["form_title", "form_id", "default_language"],
       [[some fn, some (normalize_name (some fn)), some "English"]]⟩ :=
    ensure_field_fixpoint
      (by show "form_id" ∈ ["form_title", "form_id", "default_language"]; decide)
      (Or.inr hst2)
  unfold fix_settings_sheet
  rw [if_neg (by simp), e1, e2]
  exact setColAll_of_stable
    (by show "default_language" ∈ ["form_title", "form_id", "default_language"]; decide)
    hst3

theorem fss_idem (t : Table) (hwf : t.WF) (fn : String) :
    fix_settings_sheet (fix_settings_sheet t fn) fn = fix_settings_sheet t fn := by
  by_cases hrows : t.rows = []
  · have h0 : fix_settings_sheet t fn =
        ⟨["form_title", "form_id", "default_language"],
         [[some fn, some (normalize_name (some fn)), some "English"]]⟩ := by
      unfold fix_settings_sheet
      rw [if_pos hrows]
    rw [h0]
    exact fss_T0 fn
  · have hout : fix_settings_sheet t fn =
        setColAll
          (ensure_field (ensure_field t "form_title" (some fn))
            "form_id" (some (normalize_name (some fn))))
          "default_language" (some "English") := by
      unfold fix_settings_sheet
      rw [if_neg hrows]
    set u1 := ensure_field t "form_title" (some fn) with hu1
    set u2 := ensure_field u1 "form_id" (some (normalize_name (some fn))) with hu2
    set uo := setColAll u2 "default_language" (some "English") with huo
    have hwf1 : u1.WF := ensure_field_WF hwf _ _
    have hwf2 : u2.WF := ensure_field_WF hwf1 _ _
    have hwfo : uo.WF := setColAll_WF hwf2 _ _
    have hft2 : "form_title" ∈ u2.cols :=
      mem_ensure_field_cols_of_mem (mem_ensure_field_cols_self t _ _) _ _
    have hfto : "form_title" ∈ uo.cols :=
      (mem_setColAll_cols u2 _ _ _).mpr (Or.inl hft2)
    have hfido : "form_id" ∈ uo.cols :=
      (mem_setColAll_cols u2 _ _ _).mpr (Or.inl (mem_ensure_field_cols_self u1 _ _))
    have hdlo : "default_language" ∈ uo.cols :=
      (mem_setColAll_cols u2 _ _ _).mpr (Or.inr rfl)
    have hPft : is_empty (firstCell uo "form_title") = false ∨
        ∀ r ∈ uo.rows, setColRow uo.cols "form_title" (some fn) r = r := by
      rcases ensure_field_spec hwf "form_title" (some fn) with h | h
      · left
        rw [huo, firstCell_setColAll_ne hwf2 (by decide), hu2,
          firstCell_ensure_field_ne hwf1 (by decide)]
        exact h
      · right
        rw [huo]
        exact setColAll_preserve hwf2 (by decide)
          (by rw [hu2]; exact ensure_field_preserve_stable hwf1 (by decide) h _) _
    have hPfid : is_empty (firstCell uo "form_id") = false ∨
        ∀ r ∈ uo.rows, setColRow uo.cols "form_id"
          (some (normalize_name (some fn))) r = r := by
      rcases ensure_field_spec hwf1 "form_id" (some (normalize_name (some fn))) with h | h
      · left
        rw [huo, firstCell_setColAll_ne hwf2 (by decide)]
        exact h
      · right
        rw [huo]
        exact setColAll_preserve hwf2 (by decide) h _
    have hStDl : ∀ r ∈ uo.rows,
        setColRow uo.cols "default_language" (some "English") r = r := by
      rw [huo]
      exact setColAll_establish hwf2 _ _
    have hrowso : uo.rows ≠ [] := by
      have hlen : uo.rows.length = t.rows.length := by
        rw [huo, rows_length_setColAll, hu2, rows_length_ensure_field, hu1,
          rows_length_ensure_field]
      intro hnil
      rw [hnil] at hlen
      exact hrows (List.length_eq_zero.mp hlen.symm)
    rw [hout]
    show fix_settings_sheet uo fn = uo
    unfold fix_settings_sheet
    rw [if_neg hrowso]
    rw [ensure_field_fixpoint hfto hPft]
    rw [ensure_field_fixpoint hfido hPfid]
    exact setColAll_of_stable hdlo hStDl

theorem all_congr_ptwise {α : Type} {p q : α → Bool} :
    ∀ {l : List α}, (∀ x ∈ l, p x = q x) → l.all p = l.all q := by
  intro l
  induction l with
  | nil => intro _; rfl
  | cons a as ih =>
    intro h
    simp only [List.all_cons]
    rw [h a (List.mem_cons_self _ _), ih (fun x hx => h x (List.mem_cons_of_mem _ hx))]

theorem keepMask_length : ∀ (cols : List String) (rows : List (List Cell)),
    (keepMask cols rows).length = cols.length := by
  intro cols
  induction cols with
  | nil => intro rows; rfl
  | cons c0 cs ih =>
    intro rows
    simp only [keepMask, List.length_cons]
    rw [ih]

theorem maskList_all_true {α : Type} :
    ∀ (m : List Bool) (l : List α), m.all (fun b => b) = true →
      l.length ≤ m.length → maskList m l = l := by
  intro m
  induction m with
  | nil =>
    intro l _ hlen
    cases l with
    | nil => rfl
    | cons x xs => simp at hlen
  | cons b bs ih =>
    intro l hall hlen
    cases l with
    | nil => rfl
    | cons x xs =>
      simp only [List.all_cons, Bool.and_eq_true] at hall
      simp only [maskList, if_pos hall.1]
      rw [ih xs hall.2 (by simpa using hlen)]

theorem maskList_sublist {α : Type} :
    ∀ (m : List Bool) (l : List α), (maskList m l).Sublist l := by
  intro m
  induction m with
  | nil => intro l; simp [maskList]
  | cons b bs ih =>
    intro l
    cases l with
    | nil => simp [maskList]
    | cons x xs =>
      simp only [maskList]
      split_ifs
      · exact List.Sublist.cons₂ x (ih xs)
      · exact List.Sublist.cons x (ih xs)

theorem maskList_length_eq {α β : Type} :
    ∀ (m : List Bool) (l1 : List α) (l2 : List β), l1.length = l2.length →
      (maskList m l1).length = (maskList m l2).length := by
  intro m
  induction m with
  | nil => intro l1 l2 _; rfl
  | cons b bs ih =>
    intro l1 l2 hlen
    cases l1 with
    | nil =>
      cases l2 with
      | nil => rfl
      | cons y ys => simp at hlen
    | cons x xs =>
      cases l2 with
      | nil => simp at hlen
      | cons y ys =>
        simp only [maskList]
        split_ifs
        · simp only [List.length_cons]
          rw [ih xs ys (by simpa using hlen)]
        · exact ih xs ys (by simpa using hlen)

theorem maskList_cons_true_tail {m : List Bool} :
    ∀ (r : List Cell), (maskList (true :: m) r).tail = maskList m r.tail := by
  intro r
  cases r with
  | nil => cases m <;> rfl
  | cons v vs => simp [maskList]

theorem maskList_cons_false {m : List Bool} :
    ∀ (r : List Cell), maskList (false :: m) r = maskList m r.tail := by
  intro r
  cases r with
  | nil =>
    cases m with
    | nil => rfl
    | cons b bs => rfl
  | cons v vs => simp [maskList]

theorem maskList_cons_true_head {m : List Bool} :
    ∀ (r : List Cell), (maskList (true :: m) r).head?.getD none = r.head?.getD none := by
  intro r
  cases r with
  | nil => rfl
  | cons v vs => simp [maskList]

theorem dropNaN_all_kept :
    ∀ (cols : List String) (rows : List (List Cell)),
      (keepMask (maskList (keepMask cols rows) cols)
        (rows.map (maskList (keepMask cols rows)))).all (fun b => b) = true := by
  intro cols
  induction cols with
  | nil => intro rows; rfl
  | cons c0 cs ih =>
    intro rows
    by_cases hb : (!rows.all fun r => (r.head?.getD none).isNone) = true
    · have hmask : keepMask (c0 :: cs) rows =
          true :: keepMask cs (rows.map List.tail) := by
        simp only [keepMask, hb]
      rw [hmask]
      simp only [maskList, if_pos rfl]
      have hrows' : (rows.map (maskList (true :: keepMask cs (rows.map List.tail)))).map
          List.tail = (rows.map List.tail).map (maskList (keepMask cs (rows.map List.tail))) := by
        simp only [List.map_map]
        apply List.map_congr_left
        intro r _
        simp only [Function.comp]
        exact maskList_cons_true_tail r
      have hhead : ((rows.map (maskList (true :: keepMask cs (rows.map List.tail)))).all
          (fun r => (r.head?.getD none).isNone)) =
          (rows.all (fun r => (r.head?.getD none).isNone)) := by
        rw [List.all_map]
        apply all_congr_ptwise
        intro r _
        simp only [Function.comp]
        rw [maskList_cons_true_head]
      simp only [keepMask, List.all_cons, hhead, hb, hrows']
      simp only [Bool.and_eq_true]
      constructor
      · simp
      · exact ih (rows.map List.tail)
    · have hmask : keepMask (c0 :: cs) rows =
          false :: keepMask cs (rows.map List.tail) := by
        simp only [keepMask]
        congr 1
        simpa using hb
      rw [hmask]
      simp only [maskList]
      rw [if_neg (by simp)]
      have hrows' : rows.map (maskList (false :: keepMask cs (rows.map List.tail))) =
          (rows.map List.tail).map (maskList (keepMask cs (rows.map List.tail))) := by
        simp only [List.map_map]
        apply List.map_congr_left
        intro r _
        simp only [Function.comp]
        exact maskList_cons_false r
      rw [hrows']
      exact ih (rows.map List.tail)

theorem dropRowNames_cons_mem {ds : List String} {c0 : String} (hc : c0 ∈ ds)
    (cs : List String) : ∀ (r : List Cell),
      dropRowNames ds (c0 :: cs) r = dropRowNames ds cs r.tail := by
  intro r
  cases r with
  | nil =>
    cases cs with
    | nil => rfl
    | cons d dsx => rfl
  | cons v vs => simp [dropRowNames, hc]

theorem dropRowNames_cons_not_mem {ds : List String} {c0 : String} (hc : c0 ∉ ds)
    (cs : List String) : ∀ (v : Cell) (vs : List Cell),
      dropRowNames ds (c0 :: cs) (v :: vs) = v :: dropRowNames ds cs vs := by
  intro v vs
  simp [dropRowNames, hc]

theorem drop_names_all_kept (ds : List String) :
    ∀ (cols : List String) (rows : List (List Cell)),
      (keepMask cols rows).all (fun b => b) = true →
      (keepMask (dropColsNames ds cols)
        (rows.map (dropRowNames ds cols))).all (fun b => b) = true := by
  intro cols
  induction cols with
  | nil => intro rows _; rfl
  | cons c0 cs ih =>
    intro rows hall
    have hsplit : keepMask (c0 :: cs) rows =
        (!rows.all fun r => (r.head?.getD none).isNone) ::
          keepMask cs (rows.map List.tail) := rfl
    rw [hsplit, List.all_cons, Bool.and_eq_true] at hall
    by_cases hc : c0 ∈ ds
    · have hcols : dropColsNames ds (c0 :: cs) = dropColsNames ds cs := by
        simp [dropColsNames, hc]
      have hrows : rows.map (dropRowNames ds (c0 :: cs)) =
          (rows.map List.tail).map (dropRowNames ds cs) := by
        simp only [List.map_map]
        apply List.map_congr_left
        intro r _
        simp only [Function.comp]
        exact dropRowNames_cons_mem hc cs r
      rw [hcols, hrows]
      exact ih (rows.map List.tail) hall.2
    · have hcols : dropColsNames ds (c0 :: cs) = c0 :: dropColsNames ds cs := by
        simp [dropColsNames, hc]
      rw [hcols]
      have hhead : ((rows.map (dropRowNames ds (c0 :: cs))).all
          (fun r => (r.head?.getD none).isNone)) =
          (rows.all (fun r => (r.head?.getD none).isNone)) := by
        rw [List.all_map]
        apply all_congr_ptwise
        intro r _
        simp only [Function.comp]
        cases r with
        | nil =>
          cases cs with
          | nil => rfl
          | cons d dsx => rfl
        | cons v vs =>
          rw [dropRowNames_cons_not_mem hc cs v vs]
          rfl
      have hrows : (rows.map (dropRowNames ds (c0 :: cs))).map List.tail =
          (rows.map List.tail).map (dropRowNames ds cs) := by
        simp only [List.map_map]
        apply List.map_congr_left
        intro r _
        simp only [Function.comp]
        cases r with
        | nil =>
          cases cs with
          | nil => rfl
          | cons d dsx => rfl
        | cons v vs => rw [dropRowNames_cons_not_mem hc cs v vs]; rfl
      show ((!(rows.map (dropRowNames ds (c0 :: cs))).all fun r =>
          (r.head?.getD none).isNone) ::
          keepMask (dropColsNames ds cs)
            ((rows.map (dropRowNames ds (c0 :: cs))).map List.tail)).all
          (fun b => b) = true
      rw [List.all_cons, Bool.and_eq_true, hhead, hrows]
      exact ⟨hall.1, ih (rows.map List.tail) hall.2⟩

theorem dropAllNaN_of_all_kept {t : Table} (hwf : t.WF)
    (hall : (keepMask t.cols t.rows).all (fun b => b) = true) :
    dropAllNaN t = t := by
  simp only [dropAllNaN]
  have hcols : maskList (keepMask t.cols t.rows) t.cols = t.cols :=
    maskList_all_true _ _ hall (by rw [keepMask_length])
  have hrows : t.rows.map (maskList (keepMask t.cols t.rows)) = t.rows := by
    rw [List.map_congr_left (fun r hr =>
      maskList_all_true _ r hall (by rw [keepMask_length, ← hwf.2 r hr]))]
    exact List.map_id _
  rw [hcols, hrows]

theorem dropAllNaN_WF {t : Table} (hwf : t.WF) : (dropAllNaN t).WF := by
  unfold dropAllNaN
  refine ⟨hwf.1.sublist (maskList_sublist _ _), ?_⟩
  intro r hr
  obtain ⟨r0, hr0, rfl⟩ := List.mem_map.mp hr
  exact maskList_length_eq _ r0 t.cols (hwf.2 r0 hr0)

theorem dropRowNames_length (ds : List String) :
    ∀ (cols : List String) (r : List Cell), r.length = cols.length →
      (dropRowNames ds cols r).length = (dropColsNames ds cols).length := by
  intro cols
  induction cols with
  | nil =>
    intro r hlen
    cases r with
    | nil => rfl
    | cons v vs => simp at hlen
  | cons c0 cs ih =>
    intro r hlen
    cases r with
    | nil => simp at hlen
    | cons v vs =>
      by_cases hc : c0 ∈ ds
      · rw [dropRowNames_cons_mem hc cs]
        simp only [List.tail_cons]
        rw [ih vs (by simpa using hlen)]
        simp [dropColsNames, hc]
      · rw [dropRowNames_cons_not_mem hc cs v vs]
        simp only [List.length_cons]
        rw [ih vs (by simpa using hlen)]
        simp [dropColsNames, hc]

theorem dropByNames_WF {t : Table} (hwf : t.WF) (ds : List String) :
    (dropByNames t ds).WF := by
  unfold dropByNames
  refine ⟨hwf.1.filter _, ?_⟩
  intro r hr
  obtain ⟨r0, hr0, rfl⟩ := List.mem_map.mp hr
  exact dropRowNames_length ds t.cols r0 (hwf.2 r0 hr0)

theorem dropRowNames_id (ds : List String) :
    ∀ (cols : List String), (∀ c ∈ cols, c ∉ ds) →
      ∀ (r : List Cell), r.length ≤ cols.length → dropRowNames ds cols r = r := by
  intro cols
  induction cols with
  | nil =>
    intro _ r hlen
    cases r with
    | nil => rfl
    | cons v vs => simp at hlen
  | cons c0 cs ih =>
    intro hdisj r hlen
    cases r with
    | nil =>
      cases cs with
      | nil => rfl
      | cons d dsx => rfl
    | cons v vs =>
      rw [dropRowNames_cons_not_mem (hdisj c0 (List.mem_cons_self _ _)) cs v vs]
      rw [ih (fun c hc => hdisj c (List.mem_cons_of_mem _ hc)) vs (by simpa using hlen)]

theorem dropByNames_disjoint {t : Table} (hwf : t.WF) {ds : List String}
    (hdisj : ∀ c ∈ t.cols, c ∉ ds) : dropByNames t ds = t := by
  unfold dropByNames
  have hcols : dropColsNames ds t.cols = t.cols := by
    unfold dropColsNames
    rw [List.filter_eq_self]
    intro c hc
    simp [hdisj c hc]
  have hrows : t.rows.map (dropRowNames ds t.cols) = t.rows := by
    rw [List.map_congr_left (fun r hr =>
      dropRowNames_id ds t.cols hdisj r (le_of_eq (hwf.2 r hr)))]
    exact List.map_id _
  rw [hcols, hrows]

theorem rrc_idem (t : Table) (hwf : t.WF) :
    remove_redundant_columns (remove_redundant_columns t) =
      remove_redundant_columns t := by
  have hwf1 : (dropAllNaN t).WF := dropAllNaN_WF hwf
  have hwf2 : (dropByNames (dropAllNaN t) unusedColumns).WF :=
    dropByNames_WF hwf1 _
  have h1 : (keepMask (dropAllNaN t).cols (dropAllNaN t).rows).all
      (fun b => b) = true := dropNaN_all_kept t.cols t.rows
  have h2 : (keepMask (dropByNames (dropAllNaN t) unusedColumns).cols
      (dropByNames (dropAllNaN t) unusedColumns).rows).all (fun b => b) = true :=
    drop_names_all_kept unusedColumns (dropAllNaN t).cols (dropAllNaN t).rows h1
  show remove_redundant_columns (dropByNames (dropAllNaN t) unusedColumns) =
    dropByNames (dropAllNaN t) unusedColumns
  unfold remove_redundant_columns
  rw [dropAllNaN_of_all_kept hwf2 h2]
  apply dropByNames_disjoint hwf2
  intro c hc
  have := List.mem_filter.mp hc
  simpa using this.2

theorem aliasTarget_canonical {c tgt : String} (h : aliasTarget c = some tgt) :
    tgt ∈ canonical4 := by
  unfold aliasTarget at h
  split_ifs at h <;> (injection h with h; rw [← h]; decide)

theorem aliasTarget_survivor {c tgt : String} (h : aliasTarget c = some tgt)
    (hd : dropCondNLC c = false) :
    (c = "label" ∧ tgt = "label::English") ∨ (c = "hint" ∧ tgt = "hint::English") := by
  unfold aliasTarget at h
  split_ifs at h with h1 h2 h3 h4
  · injection h with h
    simp only [labelEnglishAliases, List.mem_cons, List.not_mem_nil, or_false] at h1
    rcases h1.1 with rfl | rfl | rfl | rfl
    · exact Or.inl ⟨rfl, h.symm⟩
    · exact absurd hd (by decide)
    · exact absurd hd (by decide)
    · exact absurd rfl h1.2
  · injection h with h
    simp only [labelArabicAliases, List.mem_cons, List.not_mem_nil, or_false] at h2
    rcases h2.1 with rfl | rfl | rfl | rfl
    · exact absurd hd (by decide)
    · exact absurd hd (by decide)
    · exact absurd hd (by decide)
    · exact absurd rfl h2.2
  · injection h with h
    simp only [hintEnglishAliases, List.mem_cons, List.not_mem_nil, or_false] at h3
    rcases h3.1 with rfl | rfl | rfl | rfl
    · exact Or.inr ⟨rfl, h.symm⟩
    · exact absurd hd (by decide)
    · exact absurd hd (by decide)
    · exact absurd rfl h3.2
  · injection h with h
    simp only [hintArabicAliases, List.mem_cons, List.not_mem_nil, or_false] at h4
    rcases h4.1 with rfl | rfl | rfl | rfl
    · exact absurd hd (by decide)
    · exact absurd hd (by decide)
    · exact absurd hd (by decide)
    · exact absurd rfl h4.2

theorem getCell_mergeRow_ne {x tgt : String} (hne : x ≠ tgt) (cols : List String)
    (src : String) (r : List Cell) :
    getCell cols (mergeRow cols src tgt r) x = getCell cols r x :=
  getCell_updCol_ne hne cols _ r

theorem mergeRow_backward_empty {cols : List String} {src tgt x : String}
    {r : List Cell}
    (h : is_empty (getCell cols (mergeRow cols src tgt r) x) = true) :
    is_empty (getCell cols r x) = true := by
  by_cases hx : x = tgt
  · subst hx
    rcases getCell_updCol_self_strong cols x
      (fun v => if is_empty v && !is_empty (getCell cols r src) then
        getCell cols r src else v) r with hform | hform
    · rw [show mergeRow cols src x r = updCol cols x
        (fun v => if is_empty v && !is_empty (getCell cols r src) then
          getCell cols r src else v) r from rfl, hform] at h
      by_cases hguard : (is_empty (getCell cols r x) &&
          !is_empty (getCell cols r src)) = true
      · rw [if_pos hguard] at h
        have hg2 := hguard
        simp only [Bool.and_eq_true] at hg2
        have := hg2.2
        rw [h] at this
        simp at this
      · rw [if_neg hguard] at h
        exact h
    · rw [hform.2]
      rfl
  · rw [getCell_mergeRow_ne hx cols src r] at h
    exact h

theorem mergeRow_post {cols : List String} {src tgt : String} {r : List Cell}
    (htgt : tgt ∈ cols) (hlen : cols.length ≤ r.length)
    (h : is_empty (getCell cols (mergeRow cols src tgt r) tgt) = true) :
    is_empty (getCell cols r src) = true := by
  rw [show mergeRow cols src tgt r = updCol cols tgt
    (fun v => if is_empty v && !is_empty (getCell cols r src) then
      getCell cols r src else v) r from rfl,
    getCell_updCol_covered cols htgt _ r hlen] at h
  by_cases hguard : (is_empty (getCell cols r tgt) &&
      !is_empty (getCell cols r src)) = true
  · rw [if_pos hguard] at h
    have hg2 := hguard
    simp only [Bool.and_eq_true] at hg2
    have := hg2.2
    rw [h] at this
    simp at this
  · rw [if_neg hguard] at h
    cases hsrc : is_empty (getCell cols r src)
    · exfalso
      apply hguard
      simp [h, hsrc]
    · rfl

theorem mergeStep_WF {T : Table} (hwf : T.WF) (src tgt : String) :
    (mergeStep T src tgt).WF := by
  refine ⟨hwf.1, ?_⟩
  intro r hr
  obtain ⟨r0, hr0, rfl⟩ := List.mem_map.mp hr
  rw [show (mergeStep T src tgt).cols = T.cols from rfl]
  rw [show mergeRow T.cols src tgt r0 = updCol T.cols tgt
    (fun v => if is_empty v && !is_empty (getCell T.cols r0 src) then
      getCell T.cols r0 src else v) r0 from rfl, length_updCol, hwf.2 r0 hr0]
  simp

theorem nlcStep_WF {T : Table} (hwf : T.WF) (c : String) : (nlcStep T c).WF := by
  unfold nlcStep
  cases aliasTarget c with
  | none => exact hwf
  | some tgt => exact mergeStep_WF hwf c tgt

theorem foldl_nlcStep_WF {T : Table} (hwf : T.WF) :
    ∀ L : List String, (L.foldl nlcStep T).WF := by
  intro L
  induction L generalizing T with
  | nil => exact hwf
  | cons a as ih => exact ih (nlcStep_WF hwf a)

theorem addColIfMissing_WF {T : Table} (hwf : T.WF) (c : String) :
    (addColIfMissing T c).WF := by
  unfold addColIfMissing
  split_ifs with h
  · exact hwf
  · refine ⟨?_, ?_⟩
    · simp only [List.nodup_append]
      exact ⟨hwf.1, List.nodup_singleton _, by simpa using h⟩
    · intro r hr
      obtain ⟨r0, hr0, rfl⟩ := List.mem_map.mp hr
      simp [hwf.2 r0 hr0]

theorem nlcStep_preserves_inv {T : Table} {src tgt : String}
    (hsrc : src ∉ canonical4)
    (hinv : ∀ r ∈ T.rows, is_empty (getCell T.cols r tgt) = true →
      is_empty (getCell T.cols r src) = true) (c : String) :
    ∀ r ∈ (nlcStep T c).rows, is_empty (getCell (nlcStep T c).cols r tgt) = true →
      is_empty (getCell (nlcStep T c).cols r src) = true := by
  unfold nlcStep
  cases halias : aliasTarget c with
  | none => exact hinv
  | some tgt' =>
    intro r hr hemp
    obtain ⟨r0, hr0, rfl⟩ := List.mem_map.mp hr
    have htgt' : tgt' ∈ canonical4 := aliasTarget_canonical halias
    have hne : src ≠ tgt' := fun he => hsrc (he ▸ htgt')
    have h1 : is_empty (getCell T.cols r0 tgt) = true :=
      mergeRow_backward_empty hemp
    rw [show (mergeStep T c tgt').cols = T.cols from rfl] at hemp ⊢
    rw [getCell_mergeRow_ne hne T.cols c r0]
    exact hinv r0 hr0 h1

theorem foldl_nlcStep_preserves_inv {src tgt : String} (hsrc : src ∉ canonical4) :
    ∀ (L : List String) (T : Table),
      (∀ r ∈ T.rows, is_empty (getCell T.cols r tgt) = true →
        is_empty (getCell T.cols r src) = true) →
      ∀ r ∈ (L.foldl nlcStep T).rows,
        is_empty (getCell (L.foldl nlcStep T).cols r tgt) = true →
        is_empty (getCell (L.foldl nlcStep T).cols r src) = true := by
  intro L
  induction L with
  | nil => intro T hinv; exact hinv
  | cons a as ih =>
    intro T hinv
    exact ih (nlcStep T a) (nlcStep_preserves_inv hsrc hinv a)

theorem mergeStep_establishes_inv {T : Table} (hwf : T.WF) (src tgt : String)
    (htgt : tgt ∈ T.cols) :
    ∀ r ∈ (mergeStep T src tgt).rows,
      is_empty (getCell (mergeStep T src tgt).cols r tgt) = true →
      is_empty (getCell (mergeStep T src tgt).cols r src) = true := by
  intro r hr hemp
  obtain ⟨r0, hr0, rfl⟩ := List.mem_map.mp hr
  rw [show (mergeStep T src tgt).cols = T.cols from rfl] at hemp ⊢
  have hlen : T.cols.length ≤ r0.length := le_of_eq (hwf.2 r0 hr0).symm
  have hpost := mergeRow_post htgt hlen hemp
  by_cases hne : src = tgt
  · subst hne
    exact hemp
  · rw [getCell_mergeRow_ne hne T.cols src r0]
    exact hpost

theorem getCell_dropByNames {x : String} {ds : List String} (hx : x ∉ ds) :
    ∀ (cols : List String) (r : List Cell),
      getCell (dropColsNames ds cols) (dropRowNames ds cols r) x =
        getCell cols r x := by
  intro cols
  induction cols with
  | nil => intro r; rfl
  | cons c0 cs ih =>
    intro r
    cases r with
    | nil =>
      rw [getCell_nil]
      rw [show dropRowNames ds (c0 :: cs) [] = [] from by
        cases cs with
        | nil => rfl
        | cons d dsx => rfl]
      rw [getCell_nil]
    | cons v vs =>
      by_cases hc : c0 ∈ ds
      · rw [dropRowNames_cons_mem hc cs, List.tail_cons]
        rw [show dropColsNames ds (c0 :: cs) = dropColsNames ds cs from by
          simp [dropColsNames, hc]]
        rw [ih vs]
        simp only [getCell]
        rw [if_neg (fun he : c0 = x => hx (by rw [← he]; exact hc))]
      · rw [dropRowNames_cons_not_mem hc cs v vs]
        rw [show dropColsNames ds (c0 :: cs) = c0 :: dropColsNames ds cs from by
          simp [dropColsNames, hc]]
        simp only [getCell]
        by_cases h0 : c0 = x
        · rw [if_pos h0, if_pos h0]
        · rw [if_neg h0, if_neg h0]
          exact ih vs

theorem inv_dropByNames {T : Table} {src tgt : String} {ds : List String}
    (hsrc : src ∉ ds) (htgt : tgt ∉ ds)
    (hinv : ∀ r ∈ T.rows, is_empty (getCell T.cols r tgt) = true →
      is_empty (getCell T.cols r src) = true) :
    ∀ r ∈ (dropByNames T ds).rows,
      is_empty (getCell (dropByNames T ds).cols r tgt) = true →
      is_empty (getCell (dropByNames T ds).cols r src) = true := by
  intro r hr hemp
  obtain ⟨r0, hr0, rfl⟩ := List.mem_map.mp hr
  rw [show (dropByNames T ds).cols = dropColsNames ds T.cols from rfl] at hemp ⊢
  rw [getCell_dropByNames htgt T.cols r0] at hemp
  rw [getCell_dropByNames hsrc T.cols r0]
  exact hinv r0 hr0 hemp

theorem foldl_establish_inv {src tgt : String} {L : List String}
    (hmem : src ∈ L) (halias : aliasTarget src = some tgt)
    (hsrcnc : src ∉ canonical4) {T : Table} (hwf : T.WF) (htgt : tgt ∈ T.cols) :
    ∀ r ∈ (L.foldl nlcStep T).rows,
      is_empty (getCell (L.foldl nlcStep T).cols r tgt) = true →
      is_empty (getCell (L.foldl nlcStep T).cols r src) = true := by
  obtain ⟨L1, L2, rfl⟩ := List.append_of_mem hmem
  rw [List.foldl_append, List.foldl_cons]
  have hwfM : (L1.foldl nlcStep T).WF := foldl_nlcStep_WF hwf L1
  have htgtM : tgt ∈ (L1.foldl nlcStep T).cols := by
    rw [cols_foldl_nlcStep]
    exact htgt
  have hstep : nlcStep (L1.foldl nlcStep T) src =
      mergeStep (L1.foldl nlcStep T) src tgt := by
    unfold nlcStep
    rw [halias]
  rw [hstep]
  exact foldl_nlcStep_preserves_inv hsrcnc L2 _
    (mergeStep_establishes_inv hwfM src tgt htgtM)

theorem nlcStep_fixpoint {T : Table} (hwf : T.WF) {c : String}
    (hc : c ∈ T.cols) (hdrop : dropCondNLC c = false)
    (hinvL : "label" ∈ T.cols →
      ∀ r ∈ T.rows, is_empty (getCell T.cols r "label::English") = true →
        is_empty (getCell T.cols r "label") = true)
    (hinvH : "hint" ∈ T.cols →
      ∀ r ∈ T.rows, is_empty (getCell T.cols r "hint::English") = true →
        is_empty (getCell T.cols r "hint") = true) :
    nlcStep T c = T := by
  unfold nlcStep
  cases halias : aliasTarget c with
  | none => rfl
  | some tgt =>
    have hfix : ∀ (src : String),
        (∀ r ∈ T.rows, is_empty (getCell T.cols r tgt) = true →
          is_empty (getCell T.cols r src) = true) →
        mergeStep T src tgt = T := by
      intro src hinv
      unfold mergeStep
      have hrows : T.rows.map (mergeRow T.cols src tgt) = T.rows := by
        rw [List.map_congr_left (fun r hr => ?_)]
        · exact List.map_id _
        · apply updCol_eq_of_fix T.cols hwf.1 _ r (le_of_eq (hwf.2 r hr))
          by_cases hemp : is_empty (getCell T.cols r tgt) = true
          · have hse := hinv r hr hemp
            rw [if_neg]
            simp [hse]
          · rw [if_neg]
            simp [hemp]
      rw [hrows]
    rcases aliasTarget_survivor halias hdrop with ⟨rfl, rfl⟩ | ⟨rfl, rfl⟩
    · exact hfix "label" (hinvL hc)
    · exact hfix "hint" (hinvH hc)

theorem foldl_nlcStep_fixpoint {T : Table} :
    ∀ L : List String, (∀ c ∈ L, nlcStep T c = T) → L.foldl nlcStep T = T := by
  intro L
  induction L with
  | nil => intro _; rfl
  | cons a as ih =>
    intro h
    rw [List.foldl_cons, h a (List.mem_cons_self _ _)]
    exact ih (fun c hc => h c (List.mem_cons_of_mem _ hc))

theorem addColIfMissing_mem_id {T : Table} {c : String} (h : c ∈ T.cols) :
    addColIfMissing T c = T := by
  unfold addColIfMissing
  rw [if_pos h]

theorem canonical_mem_nlc (t : Table) :
    ∀ c ∈ canonical4, c ∈ (normalize_language_columns t).cols := by
  intro c hc
  rw [mem_nlc_cols]
  refine ⟨Or.inr hc, ?_⟩
  rintro ⟨-, hd⟩
  have hfalse : dropCondNLC c = false := by
    simp only [canonical4, List.mem_cons, List.not_mem_nil, or_false] at hc
    rcases hc with rfl | rfl | rfl | rfl <;> decide
  rw [hfalse] at hd
  exact Bool.noConfusion hd

theorem nlc_no_dropcond (t : Table) :
    ∀ c ∈ (normalize_language_columns t).cols, dropCondNLC c = false := by
  intro c hc
  rw [mem_nlc_cols] at hc
  obtain ⟨h1, h2⟩ := hc
  by_cases hcan : c ∈ canonical4
  · simp only [canonical4, List.mem_cons, List.not_mem_nil, or_false] at hcan
    rcases hcan with rfl | rfl | rfl | rfl <;> decide
  · have hct : c ∈ t.cols := by
      rcases h1 with h | h
      · exact h
      · exact absurd h hcan
    cases hx : dropCondNLC c
    · rfl
    · exact absurd ⟨hct, hx⟩ h2

theorem nlc_WF {t : Table} (hwf : t.WF) : (normalize_language_columns t).WF := by
  unfold normalize_language_columns
  exact dropByNames_WF (foldl_nlcStep_WF (addColIfMissing_WF (addColIfMissing_WF
    (addColIfMissing_WF (addColIfMissing_WF hwf _) _) _) _) _) _

theorem nlc_inv (t : Table) (hwf : t.WF) {src tgt : String}
    (halias : aliasTarget src = some tgt) (hsrcnc : src ∉ canonical4)
    (hdrop : dropCondNLC src = false) (htgtdrop : dropCondNLC tgt = false)
    (hsrct : src ∈ t.cols) (htgtc : tgt ∈ canonical4) :
    ∀ r ∈ (normalize_language_columns t).rows,
      is_empty (getCell (normalize_language_columns t).cols r tgt) = true →
      is_empty (getCell (normalize_language_columns t).cols r src) = true := by
  unfold normalize_language_columns
  have hwf1 := addColIfMissing_WF (addColIfMissing_WF (addColIfMissing_WF
    (addColIfMissing_WF hwf "label::English") "label::Arabic") "hint::English")
    "hint::Arabic"
  have htgt1 : tgt ∈ (addColIfMissing (addColIfMissing (addColIfMissing
      (addColIfMissing t "label::English") "label::Arabic") "hint::English")
      "hint::Arabic").cols := (mem_nlc_t1_cols t tgt).mpr (Or.inr htgtc)
  apply inv_dropByNames
  · intro hm
    exact absurd ((List.mem_filter.mp hm).2.symm.trans hdrop) Bool.noConfusion
  · intro hm
    exact absurd ((List.mem_filter.mp hm).2.symm.trans htgtdrop) Bool.noConfusion
  · exact foldl_establish_inv hsrct halias hsrcnc hwf1 htgt1

theorem nlc_idem (t : Table) (hwf : t.WF) :
    normalize_language_columns (normalize_language_columns t) =
      normalize_language_columns t := by
  have hwfo : (normalize_language_columns t).WF := nlc_WF hwf
  have hcanon := canonical_mem_nlc t
  have hnodrop := nlc_no_dropcond t
  have hinvL : "label" ∈ (normalize_language_columns t).cols →
      ∀ r ∈ (normalize_language_columns t).rows,
        is_empty (getCell (normalize_language_columns t).cols r "label::English") = true →
        is_empty (getCell (normalize_language_columns t).cols r "label") = true := by
    intro hm
    have hlt : "label" ∈ t.cols := by
      have := (mem_nlc_cols t "label").mp hm
      rcases this.1 with h | h
      · exact h
      · exact absurd h (by decide)
    exact nlc_inv t hwf (by decide) (by decide) (by decide) (by decide) hlt (by decide)
  have hinvH : "hint" ∈ (normalize_language_columns t).cols →
      ∀ r ∈ (normalize_language_columns t).rows,
        is_empty (getCell (normalize_language_columns t).cols r "hint::English") = true →
        is_empty (getCell (normalize_language_columns t).cols r "hint") = true := by
    intro hm
    have hlt : "hint" ∈ t.cols := by
      have := (mem_nlc_cols t "hint").mp hm
      rcases this.1 with h | h
      · exact h
      · exact absurd h (by decide)
    exact nlc_inv t hwf (by decide) (by decide) (by decide) (by decide) hlt (by decide)
  show normalize_language_columns (normalize_language_columns t) =
    normalize_language_columns t
  conv_lhs => rw [normalize_language_columns]
  rw [addColIfMissing_mem_id (hcanon "label::English" (by decide))]
  rw [addColIfMissing_mem_id (hcanon "label::Arabic" (by decide))]
  rw [addColIfMissing_mem_id (hcanon "hint::English" (by decide))]
  rw [addColIfMissing_mem_id (hcanon "hint::Arabic" (by decide))]
  rw [foldl_nlcStep_fixpoint _ (fun c hc =>
    nlcStep_fixpoint hwfo hc (hnodrop c hc) hinvL hinvH)]
  rw [show (normalize_language_columns t).cols.filter dropCondNLC = [] from by
    rw [List.filter_eq_nil_iff]
    intro c hc
    simp [hnodrop c hc]]
  exact dropByNames_disjoint hwfo (fun c _ => List.not_mem_nil c)

/-- C6: each of the Language Column Normalizer, Field Type Fixer,
Expression Validator, Default Value Sanitizer, Settings Fixer and
Redundant Column Pruner is idempotent on well-formed tables: applying the
stage to its own output returns that output unchanged. -/
theorem C6_stage_idempotence (t : Table) (hwf : t.WF) :
    normalize_language_columns (normalize_language_columns t) =
      normalize_language_columns t ∧
    fix_field_types (fix_field_types t) = fix_field_types t ∧
    clean_calculation_fields (clean_calculation_fields t) =
      clean_calculation_fields t ∧
    clean_default_values (clean_default_values t) = clean_default_values t ∧
    (∀ fn : String, fix_settings_sheet (fix_settings_sheet t fn) fn =
      fix_settings_sheet t fn) ∧
    remove_redundant_columns (remove_redundant_columns t) =
      remove_redundant_columns t :=
  ⟨nlc_idem t hwf, fft_idem t, ccf_idem t, cdv_idem t,
    fun fn => fss_idem t hwf fn, rrc_idem t hwf⟩

theorem C6_stage_idempotence_witness :
    Table.WF ⟨["type", "label", "default", "calculation"],
      [[some "deviceid", some "x", some "pulldata(a)", none]]⟩ ∧
    (∀ fn : String, fix_settings_sheet (fix_settings_sheet
      ⟨["type", "label", "default", "calculation"],
       [[some "deviceid", some "x", some "pulldata(a)", none]]⟩ fn) fn =
      fix_settings_sheet ⟨["type", "label", "default", "calculation"],
       [[some "deviceid", some "x", some "pulldata(a)", none]]⟩ fn) :=
  ⟨by decide,
    (C6_stage_idempotence ⟨["type", "label", "default", "calculation"],
      [[some "deviceid", some "x", some "pulldata(a)", none]]⟩
      (by decide)).2.2.2.2.1⟩

end FormConverter
